import Mathlib

/-!
# AVL tree of student records (`src/src/AVLTree.h`, `src/src/Node.h`)

A shallow embedding of the C++ class `AVLTree` and of its `Node`s.

* A value of `Tree` is the value of a `Node*`: `Tree.null` is `nullptr`, and
  `Tree.node left id name height right` is a pointer to a `Node` with these five fields.  The
  C++ tree is a strict ownership tree (every node is reached from one pointer only), so a
  pointer and the subtree it owns are the same thing here.
* `int` is embedded as `Int`: keys are only compared, heights stay small, and the counter of
  `removeInorder` would need more than `2^31` visited nodes to leave the range of `int`.
* A function that dereferences a pointer returns `Option`; `none` is the dereference of
  `nullptr` (undefined behaviour in the source).
* Functions that mutate nodes in place return the new value of what they mutate.
* The `while` loops over `queue<Node*>` (`levelCount`, `_copyLevelorder`) are defined by
  recursion on the number of entries that the queue still holds, so they are total.
* `std::string` is `String`; `pop_back` on the empty string is undefined and returns `none`.
-/

namespace AVLTree

/-- Value of a `Node*`: `nullptr`, or a node with the fields of `Node.h`
(`left`, `id`, `name`, `height`, `right`). -/
inductive Tree where
  | null : Tree
  | node (left : Tree) (id : Int) (name : String) (height : Int) (right : Tree) : Tree
  deriving DecidableEq

/-- Constructor `Node(int i, string s)` of `Node.h`: height `0` and no children. -/
def newNode (i : Int) (s : String) : Tree := .node .null i s 0 .null

/-- Source function `AVLTree::_rotateRight`: `root->left` and `left->right` are dereferenced. -/
def _rotateRight : Tree → Option Tree
  | .node (.node ll lid lname lh lr) id name h r =>
      some (.node ll lid lname lh (.node lr id name h r))
  | _ => none

/-- Source function `AVLTree::_rotateLeft`: `root->right` and `right->left` are dereferenced. -/
def _rotateLeft : Tree → Option Tree
  | .node l id name h (.node rl rid rname rh rr) =>
      some (.node (.node l id name h rl) rid rname rh rr)
  | _ => none

/-- Source function `AVLTree::_rotateRightLeft`: `root->right = _rotateRight(root->right)`, then
`_rotateLeft(root)`. -/
def _rotateRightLeft : Tree → Option Tree
  | .node l id name h r =>
      match _rotateRight r with
      | some r1 => _rotateLeft (.node l id name h r1)
      | none => none
  | .null => none

/-- Source function `AVLTree::_rotateLeftRight`: `root->left = _rotateLeft(root->left)`, then
`_rotateRight(root)`. -/
def _rotateLeftRight : Tree → Option Tree
  | .node l id name h r =>
      match _rotateLeft l with
      | some l1 => _rotateRight (.node l1 id name h r)
      | none => none
  | .null => none

/-- Source function `AVLTree::_getHeight`: structural height, `-1` for `nullptr`. -/
def _getHeight : Tree → Int
  | .null => -1
  | .node l _ _ _ r => 1 + max (_getHeight l) (_getHeight r)

/-- Source function `AVLTree::_getBalance`: `_getHeight(root->left) - _getHeight(root->right)`. -/
def _getBalance : Tree → Option Int
  | .null => none
  | .node l _ _ _ r => some (_getHeight l - _getHeight r)

/-- Source function `AVLTree::_updateBalance`. -/
def _updateBalance : Tree → Option Tree
  | .null => none
  | .node l id name h r =>
      let balance := _getHeight l - _getHeight r
      if balance < -1 then
        match _getBalance r with
        | none => none
        | some br =>
            if br = 1 then _rotateRightLeft (.node l id name h r)
            else _rotateLeft (.node l id name h r)
      else if balance > 1 then
        match _getBalance l with
        | none => none
        | some bl =>
            if bl = -1 then _rotateLeftRight (.node l id name h r)
            else _rotateRight (.node l id name h r)
      else some (.node l id name h r)

/-- Source function `AVLTree::_insert`: returns the root of the updated subtree. -/
def _insert : Tree → Int → String → Option Tree
  | .null, id, name => some (newNode id name)
  | .node l root_id rname h r, id, name =>
      if id < root_id then
        match _insert l id name with
        | some l1 => _updateBalance (.node l1 root_id rname h r)
        | none => none
      else
        match _insert r id name with
        | some r1 => _updateBalance (.node l root_id rname h r1)
        | none => none

/-- Source function `AVLTree::_search(Node*, int, string&)`: the third argument is the in/out
parameter `match`, the result is its final value. -/
def _search : Tree → Int → String → String
  | .null, _, m => m
  | .node l root_id name _ r, id, m =>
      let m1 := if id = root_id then name else m
      let m2 := if id < root_id then _search l id m1 else m1
      if id > root_id then _search r id m2 else m2

/-- Source function `AVLTree::search(int)`. -/
def search (root : Tree) (id : Int) : String := _search root id ""

/-- Source function `AVLTree::insert`: the new value of `_root` and the returned boolean. -/
def insert (root : Tree) (id : Int) (name : String) : Option (Tree × Bool) :=
  if search root id ≠ "" then some (root, false)
  else
    match _insert root id name with
    | none => none
    | some r1 => some (if r1 ≠ .null then r1 else root, decide (r1 ≠ .null))

/-! ## Removal

`_deleteNode`, `_remove` and `_removeInorder` receive `root` together with `parent`, the node
whose link holds `root` (or `nullptr` at the top).  They mutate both in place, so each of them
returns here the new value of the node that owns everything it may touch: the parent's node when
`parent` is not `nullptr`, the node of `root` otherwise. -/

/-- A `parent` argument that is not `nullptr`: the fields of the parent's node other than the
link holding `root`, and which link that is (`parent->left == root` or `parent->right == root`;
in an ownership tree exactly one of them holds). -/
structure Parent where
  rootIsLeft : Bool
  id : Int
  name : String
  height : Int
  other : Tree
  deriving DecidableEq

/-- The parent's node with `root` in the link that holds it. -/
def Parent.plug (p : Parent) (root : Tree) : Tree :=
  if p.rootIsLeft then .node root p.id p.name p.height p.other
  else .node p.other p.id p.name p.height root

/-- The node that owns `root`: the parent's node, or `root` itself under no parent. -/
def plug : Option Parent → Tree → Tree
  | none, root => root
  | some p, root => p.plug root

/-- Value of the local variable `root` after `root = _deleteNode(root, parent)`. -/
inductive Cursor where
  /-- Case `root == nullptr`: the freed node had no parent. -/
  | null : Cursor
  /-- Case `root == parent`, whose node now is `t` (its link to the freed node is cleared). -/
  | parent (t : Tree) : Cursor
  /-- Case of `root` unchanged: it is the same node, which now is `t`. -/
  | self (t : Tree) : Cursor
  deriving DecidableEq

/-- Source function `AVLTree::_getLeftmost`: the returned pointer `leftmost` and the node of `root` after the
call.  `root->left->left` is read without a check of `root->left`. -/
def _getLeftmost : Tree → Option (Tree × Tree)
  | .null => some (.null, .null)
  | .node .null _ _ _ _ => none
  | .node (.node .null lid lname lh lr) id name h r =>
      some (.node .null lid lname lh lr, .node lr id name h r)
  | .node (.node (.node a aid aname ah b) lid lname lh lr) id name h r =>
      match _getLeftmost (.node (.node a aid aname ah b) lid lname lh lr) with
      | some (leftmost, l1) => some (leftmost, .node l1 id name h r)
      | none => none

/-- The assignment `node->height = h`, skipped when `node` is `nullptr`. -/
def setHeight : Tree → Int → Tree
  | .null, _ => .null
  | .node l id name _ r, h => .node l id name h r

/-- Source function `AVLTree::_updateHeight`: the `height` fields of `root` and of its two children are set
to their structural heights. -/
def _updateHeight : Tree → Option Tree
  | .null => none
  | .node l id name h r =>
      some (.node (setHeight l (_getHeight l)) id name (_getHeight (.node l id name h r))
        (setHeight r (_getHeight r)))

/-- Source function `AVLTree::_deleteNode`, the five branches in the order of the source. -/
def _deleteNode : Tree → Option Parent → Option Cursor
  | .null, _ => none
  | .node .null _ _ _ .null, none => some .null
  | .node .null _ _ _ .null, some p => some (.parent (p.plug .null))
  | .node (.node ll lid lname _ lr) _ _ h .null, _ => some (.self (.node ll lid lname h lr))
  | .node .null _ _ h (.node rl rid rname _ rr), _ => some (.self (.node rl rid rname h rr))
  | .node (.node ll lid lname lh lr) _ _ h (.node .null rid rname _ rr), _ =>
      some (.self (.node (.node ll lid lname lh lr) rid rname h rr))
  | .node (.node ll lid lname lh lr) _ _ h (.node (.node a aid aname ah b) rid rname rh rr), _ =>
      match _getLeftmost (.node (.node a aid aname ah b) rid rname rh rr) with
      | none => none
      | some (.null, _) => none
      | some (.node _ mid mname _ _, right1) =>
          some (.self (.node (.node ll lid lname lh lr) mid mname h right1))

/-- The statement `if (root) _updateHeight(root);` after `root = _deleteNode(root, parent)`. -/
def Cursor.updateHeight : Cursor → Option Cursor
  | .null => some .null
  | .parent t =>
      match _updateHeight t with
      | some t1 => some (.parent t1)
      | none => none
  | .self t =>
      match _updateHeight t with
      | some t1 => some (.self t1)
      | none => none

/-- Source function `AVLTree::_remove`: the node that owns `root` after the call (`plug parent root` before
it; `Tree.null` when `root` was freed under no parent) and the returned boolean. -/
def _remove : Tree → Option Parent → Int → Option (Tree × Bool)
  | .null, parent, _ => some (plug parent .null, false)
  | .node l root_id name h r, parent, id =>
      if id < root_id then
        match _remove l (some ⟨true, root_id, name, h, r⟩) id with
        | none => none
        | some (root1, left_is_removed) => some (plug parent root1, left_is_removed)
      else if id > root_id then
        match _remove r (some ⟨false, root_id, name, h, l⟩) id with
        | none => none
        | some (root1, right_is_removed) => some (plug parent root1, right_is_removed)
      else
        match _deleteNode (.node l root_id name h r) parent with
        | none => none
        | some c =>
            match c.updateHeight with
            | none => none
            | some .null => some (.null, true)
            | some (.parent p1) => some (p1, true)
            | some (.self root1) => some (plug parent root1, true)

/-- Source function `AVLTree::remove`: the new value of `_root` and the returned boolean; `_root->left` is
read first, whatever `_root` is. -/
def remove : Tree → Int → Option (Tree × Bool)
  | .null, _ => none
  | .node l root_id name h r, id =>
      let is_leaf := decide (l = .null) && decide (r = .null)
      match _remove (.node l root_id name h r) none id with
      | none => none
      | some (root1, is_removed) =>
          some (if is_leaf && is_removed then .null else root1, is_removed)

/-- Outcome of a call evaluated with a bound on the depth of its recursion. -/
inductive Run (α : Type) where
  /-- The call returns. -/
  | done (a : α) : Run α
  /-- The call dereferences `nullptr`. -/
  | nullDeref : Run α
  /-- The bound was reached before the call returned. -/
  | noFuel : Run α
  deriving DecidableEq

/-- Source function `AVLTree::_removeInorder`: the node that owns `root` after the call (as for `_remove`), the
final value of `*count`, and the returned boolean.  After `root = _deleteNode(root, parent)` the
walk goes on from the new `root`, which may be the parent; that call is not on a subtree of
`root`, so the recursion is bounded by `fuel`. -/
def _removeInorder : Nat → Tree → Option Parent → Int → Run (Tree × Int × Bool)
  | 0, _, _, _ => .noFuel
  | _ + 1, .null, parent, count => .done (plug parent .null, count, false)
  | fuel + 1, .node l id name h r, parent, count =>
      match _removeInorder fuel l (some ⟨true, id, name, h, r⟩) count with
      | .noFuel => .noFuel
      | .nullDeref => .nullDeref
      | .done (root1, count1, left_is_removed) =>
          let current_is_removed := decide (count1 = 0)
          let cursor : Option Cursor :=
            if count1 = 0 then
              match _deleteNode root1 parent with
              | none => none
              | some c => c.updateHeight
            else some (.self root1)
          match cursor with
          | none => .nullDeref
          | some .null => .done (.null, count1 - 1, left_is_removed || current_is_removed)
          | some (.parent .null) => .nullDeref
          | some (.parent (.node pl pid pname ph pr)) =>
              match _removeInorder fuel pr (some ⟨false, pid, pname, ph, pl⟩) (count1 - 1) with
              | .noFuel => .noFuel
              | .nullDeref => .nullDeref
              | .done (p1, count2, right_is_removed) =>
                  .done (p1, count2, left_is_removed || current_is_removed || right_is_removed)
          | some (.self .null) => .nullDeref
          | some (.self (.node sl sid sname sh sr)) =>
              match _removeInorder fuel sr (some ⟨false, sid, sname, sh, sl⟩) (count1 - 1) with
              | .noFuel => .noFuel
              | .nullDeref => .nullDeref
              | .done (root2, count2, right_is_removed) =>
                  .done (plug parent root2, count2,
                    left_is_removed || current_is_removed || right_is_removed)

/-- Source function `AVLTree::removeInorder`: the new value of `_root` and the returned boolean; `_root->left`
is read first, whatever `_root` is. -/
def removeInorder (fuel : Nat) : Tree → Int → Run (Tree × Bool)
  | .null, _ => .nullDeref
  | .node l id name h r, count =>
      let is_leaf := decide (l = .null) && decide (r = .null)
      match _removeInorder fuel (.node l id name h r) none count with
      | .noFuel => .noFuel
      | .nullDeref => .nullDeref
      | .done (root1, _, is_removed) =>
          .done (if is_leaf && is_removed then .null else root1, is_removed)

/-! ## Traversals, depth and lookup by name -/

/-- Source member `std::string::pop_back`: the last character is removed; undefined on the
empty string. -/
def pop_back (s : String) : Option String :=
  if s.data = [] then none else some ⟨s.data.dropLast⟩

/-- Source function `AVLTree::_copyInorder`: the second argument is the in/out parameter
`names`, the result is its final value. -/
def _copyInorder : Tree → String → String
  | .null, names => names
  | .node l _ name _ r, names => _copyInorder r (_copyInorder l names ++ (name ++ ", "))

/-- Source function `AVLTree::_copyPreorder`. -/
def _copyPreorder : Tree → String → String
  | .null, names => names
  | .node l _ name _ r, names => _copyPreorder r (_copyPreorder l (names ++ (name ++ ", ")))

/-- Source function `AVLTree::_copyPostorder`. -/
def _copyPostorder : Tree → String → String
  | .null, names => names
  | .node l _ name _ r, names => _copyPostorder r (_copyPostorder l names) ++ (name ++ ", ")

/-- Number of entries. -/
def size : Tree → Nat
  | .null => 0
  | .node l _ _ _ r => size l + 1 + size r

/-- Total number of entries of the trees held in a queue. -/
def queueSize (q : List Tree) : Nat := (q.map size).sum

/-- The statement `if (child) { nodes_queue.push(child); nodes_counted++; }` on the pair of
the queue and of `nodes_counted`. -/
def pushChild (child : Tree) (st : List Tree × Int) : List Tree × Int :=
  if child = .null then st else (st.1 ++ [child], st.2 + 1)

/-- The `while` loop of `AVLTree::_copyLevelorder` from a state of `nodes_queue` (front first),
`nodes_counted`, `nodes_expected` and `names`; the result is the final value of `names`.  The
queue never holds `nullptr`. -/
def _copyLevelorderLoop (q : List Tree) (nodes_counted nodes_expected : Int) (names : String) :
    Option String :=
  match q with
  | [] => some names
  | .null :: _ => none
  | .node l _ name _ r :: rest =>
      let st := pushChild r (pushChild l (rest, nodes_counted))
      if nodes_expected - 1 = 0 then _copyLevelorderLoop st.1 0 st.2 (names ++ (name ++ ", "))
      else _copyLevelorderLoop st.1 st.2 (nodes_expected - 1) (names ++ (name ++ ", "))
termination_by queueSize q
decreasing_by
  all_goals
    simp_wf
    simp only [pushChild, queueSize]
    split_ifs <;> simp [size] <;> omega

/-- Source function `AVLTree::_copyLevelorder`. -/
def _copyLevelorder : Tree → String → Option String
  | .null, names => some names
  | .node l id name h r, names => _copyLevelorderLoop [.node l id name h r] 0 1 names

/-- The enumeration `AVLTree::Traversal`. -/
inductive Traversal where
  | INORDER : Traversal
  | PREORDER : Traversal
  | POSTORDER : Traversal
  | LEVELORDER : Traversal
  deriving DecidableEq

/-- Source function `AVLTree::traversalToString`. -/
def traversalToString (root : Tree) (type : Traversal) : Option String :=
  if root = .null then some ""
  else
    let names : Option String :=
      match type with
      | .INORDER => some (_copyInorder root "")
      | .PREORDER => some (_copyPreorder root "")
      | .POSTORDER => some (_copyPostorder root "")
      | .LEVELORDER => _copyLevelorder root ""
    match names with
    | none => none
    | some names1 =>
        match pop_back names1 with
        | none => none
        | some names2 => pop_back names2

/-- The `while` loop of `AVLTree::levelCount` from a state of `nodes_queue` (front first),
`nodes_counted`, `nodes_expected` and `level_count`; the result is the final value of
`level_count`. -/
def levelCountLoop (q : List Tree) (nodes_counted nodes_expected level_count : Int) :
    Option Int :=
  match q with
  | [] => some level_count
  | .null :: _ => none
  | .node l _ _ _ r :: rest =>
      let st := pushChild r (pushChild l (rest, nodes_counted))
      if nodes_expected - 1 = 0 then levelCountLoop st.1 0 st.2 (level_count + 1)
      else levelCountLoop st.1 st.2 (nodes_expected - 1) level_count
termination_by queueSize q
decreasing_by
  all_goals
    simp_wf
    simp only [pushChild, queueSize]
    split_ifs <;> simp [size] <;> omega

/-- Source function `AVLTree::levelCount`. -/
def levelCount : Tree → Option Int
  | .null => some 0
  | .node l id name h r => levelCountLoop [.node l id name h r] 0 1 0

/-- Source function `AVLTree::_idToString`: `prefix_len` is a `size_t` (64 bits), so the
subtraction wraps when `to_string(id)` has more than 8 characters. -/
def _idToString (id : Int) : String :=
  let id_string := toString id
  let pad_len := (8 + 2 ^ 64 - id_string.length) % 2 ^ 64
  String.mk (List.replicate pad_len '0') ++ id_string

/-- Source function `AVLTree::_search(Node*, const string&, vector<string>&)`: the third
argument is the in/out parameter `matches`, the result is its final value. -/
def _searchName : Tree → String → List String → List String
  | .null, _, found => found
  | .node l id root_name _ r, name, found =>
      let found1 := if name = root_name then found ++ [_idToString id] else found
      _searchName r name (_searchName l name found1)

/-- Source function `AVLTree::search(const string&)`. -/
def searchName (root : Tree) (name : String) : List String := _searchName root name []

/-! ## Input validation (`src/src/helpers.h`) -/

/-- Value of a string of decimal digits, as `String.toNat?` folds it. -/
def decValue (cs : List Char) : Nat :=
  cs.foldl (fun n c => n * 10 + (c.toNat - '0'.toNat)) 0

/-- The loop of `validateCount` over the characters that are left. -/
def validateCountLoop : List Char → Bool
  | [] => true
  | count_char :: rest =>
      if count_char.toNat < 48 || count_char.toNat > 57 then false else validateCountLoop rest

/-- Source function `validateCount` of `helpers.h`: `false` at the first character outside
`48 .. 57`, `true` when the loop ends. -/
def validateCount (count_str : String) : Bool := validateCountLoop count_str.data

/-- Library predicate `std::isspace` in the C locale: space and the characters 9 to 13. -/
def isspace (c : Char) : Bool := c.toNat = 32 || (9 ≤ c.toNat && c.toNat ≤ 13)

/-- The characters after the optional sign that `std::stoi` reads. -/
def dropSign : List Char → List Char
  | '-' :: rest => rest
  | '+' :: rest => rest
  | cs => cs

/-- Library function `std::stoi(str, nullptr, 10)`: leading white space is skipped, then an
optional sign and the longest run of decimal digits are read; `none` is the exception thrown
when no digit could be read (`std::invalid_argument`) or when the value does not fit an `int`
(`std::out_of_range`). -/
def stoi (str : String) : Option Int :=
  let cs := str.data.dropWhile isspace
  let negative := decide (cs.head? = some '-')
  let digits := (dropSign cs).takeWhile Char.isDigit
  if digits = [] then none
  else
    let value : Int := if negative then -(decValue digits : Int) else (decValue digits : Int)
    if -2 ^ 31 ≤ value ∧ value ≤ 2 ^ 31 - 1 then some value else none

/-- Source function `as_int` of `helpers.h`. -/
def as_int (int_str : String) : Option Int := stoi int_str

/-! ## Specification vocabulary -/

/-- In-order sequence (left, self, right) of the `(id, name)` entries. -/
def inorder : Tree → List (Int × String)
  | .null => []
  | .node l id name _ r => inorder l ++ (id, name) :: inorder r

/-- Keys of a tree, in in-order. -/
def keys (t : Tree) : List Int := (inorder t).map Prod.fst

/-- BST property: for every entry, all keys in `left` < `key` < all keys in `right`. -/
def BST : Tree → Prop
  | .null => True
  | .node l id _ _ r =>
      (∀ x ∈ keys l, x < id) ∧ (∀ x ∈ keys r, id < x) ∧ BST l ∧ BST r

instance BST.decidable : (t : Tree) → Decidable (BST t)
  | .null => isTrue trivial
  | .node l id _ _ r =>
      have := BST.decidable l
      have := BST.decidable r
      inferInstanceAs (Decidable
        ((∀ x ∈ keys l, x < id) ∧ (∀ x ∈ keys r, id < x) ∧ BST l ∧ BST r))

/-- AVL balance property: at every entry, `|height(left) − height(right)| ≤ 1`, with the
structural heights of `_getHeight`. -/
def Balanced : Tree → Prop
  | .null => True
  | .node l _ _ _ r => |_getHeight l - _getHeight r| ≤ 1 ∧ Balanced l ∧ Balanced r

instance Balanced.decidable : (t : Tree) → Decidable (Balanced t)
  | .null => isTrue trivial
  | .node l _ _ _ r =>
      have := Balanced.decidable l
      have := Balanced.decidable r
      inferInstanceAs (Decidable
        (|_getHeight l - _getHeight r| ≤ 1 ∧ Balanced l ∧ Balanced r))

/-- Balance factor of the glossary, `0` for `nullptr`. -/
def bal : Tree → Int
  | .null => 0
  | .node l _ _ _ r => _getHeight l - _getHeight r

/-- In-order sequence of the node that owns `root`, from the in-order sequence of `root`. -/
def plugList : Option Parent → List (Int × String) → List (Int × String)
  | none, xs => xs
  | some p, xs =>
      if p.rootIsLeft then xs ++ (p.id, p.name) :: inorder p.other
      else inorder p.other ++ (p.id, p.name) :: xs

/-- Number of nodes on the longest path from the root down (`0` for `nullptr`). -/
def depth : Tree → Nat
  | .null => 0
  | .node l _ _ _ r => 1 + max (depth l) (depth r)

/-- The tree that `insert` builds from the keys `1` to `7` given in this order, for examples. -/
def sample : Tree :=
  .node (.node (newNode 1 "a") 2 "b" 0 (newNode 3 "c")) 4 "d" 0
    (.node (newNode 5 "e") 6 "f" 0 (newNode 7 "g"))

/-- State of the tree after a sequence of `insert` calls, the first call first. -/
def insertAll : Tree → List (Int × String) → Option Tree
  | t, [] => some t
  | t, (k, v) :: rest =>
      match insert t k v with
      | some (t1, _) => insertAll t1 rest
      | none => none

/-- Pre-order sequence (self, left, right) of the `(id, name)` entries. -/
def preorder : Tree → List (Int × String)
  | .null => []
  | .node l id name _ r => (id, name) :: (preorder l ++ preorder r)

/-- Labels of the entries at distance `d` from the root, from left to right. -/
def atDepth : Tree → Nat → List String
  | .null, _ => []
  | .node _ _ name _ _, 0 => [name]
  | .node l _ _ _ r, d + 1 => atDepth l d ++ atDepth r d

/-- Labels in breadth-first order: depth by depth from the root down, and from left to right
within one depth. -/
def levelorder (t : Tree) : List String := (List.range (depth t)).flatMap (atDepth t)

/-- Cached heights are accurate: the `height` field of every entry is the structural height
of the subtree rooted at that entry. -/
def HeightsOk : Tree → Prop
  | .null => True
  | .node l id name h r => h = _getHeight (.node l id name h r) ∧ HeightsOk l ∧ HeightsOk r

instance HeightsOk.decidable : (t : Tree) → Decidable (HeightsOk t)
  | .null => isTrue trivial
  | .node l id name h r =>
      have := HeightsOk.decidable l
      have := HeightsOk.decidable r
      inferInstanceAs (Decidable
        (h = _getHeight (.node l id name h r) ∧ HeightsOk l ∧ HeightsOk r))

/-- Balance factor within `{-2, …, 2}` at every entry. -/
def Within2 : Tree → Prop
  | .null => True
  | .node l _ _ _ r => |_getHeight l - _getHeight r| ≤ 2 ∧ Within2 l ∧ Within2 r

instance Within2.decidable : (t : Tree) → Decidable (Within2 t)
  | .null => isTrue trivial
  | .node l _ _ _ r =>
      have := Within2.decidable l
      have := Within2.decidable r
      inferInstanceAs (Decidable
        (|_getHeight l - _getHeight r| ≤ 2 ∧ Within2 l ∧ Within2 r))

/-- The tree with every `height` field set to `0`: what is left when cached heights are
ignored. -/
def shape : Tree → Tree
  | .null => .null
  | .node l id name _ r => .node (shape l) id name 0 (shape r)

/-- State of the tree after a sequence of `remove` calls, the first call first, with the
booleans they returned. -/
def removeAll : Tree → List Int → Option (Tree × List Bool)
  | t, [] => some (t, [])
  | t, k :: rest =>
      match remove t k with
      | none => none
      | some (t1, b) =>
          match removeAll t1 rest with
          | none => none
          | some (t2, bs) => some (t2, b :: bs)

/-- State of the tree after a sequence of `removeInorder` calls, the first call first, with
the booleans they returned. -/
def removeInorderAll (fuel : Nat) : Tree → List Int → Run (Tree × List Bool)
  | t, [] => .done (t, [])
  | t, c :: rest =>
      match removeInorder fuel t c with
      | .noFuel => .noFuel
      | .nullDeref => .nullDeref
      | .done (t1, b) =>
          match removeInorderAll fuel t1 rest with
          | .noFuel => .noFuel
          | .nullDeref => .nullDeref
          | .done (t2, bs) => .done (t2, b :: bs)

/-- Every rank of the list is below the number of entries left when its call is made: the
first below `n`, the second below `n - 1`, and so on. -/
def RanksBelow : Nat → List Nat → Prop
  | _, [] => True
  | n, r :: rest => r < n ∧ RanksBelow (n - 1) rest

instance RanksBelow.decidable : (n : Nat) → (rs : List Nat) → Decidable (RanksBelow n rs)
  | _, [] => isTrue trivial
  | n, r :: rest =>
      have := RanksBelow.decidable (n - 1) rest
      inferInstanceAs (Decidable (r < n ∧ RanksBelow (n - 1) rest))

/-- The children of a node that are not `nullptr`, left first. -/
def children : Tree → List Tree
  | .null => []
  | .node l _ _ _ r => (if l = .null then [] else [l]) ++ (if r = .null then [] else [r])

/-- The children of the nodes of a queue, in the order of the queue. -/
def kids (q : List Tree) : List Tree := q.flatMap children

/-- Labels at distance `d` from the roots of the trees of a queue, in the order of the queue. -/
def forestLevel (q : List Tree) (d : Nat) : List String := q.flatMap (fun t => atDepth t d)

/-- Largest `depth` among the trees of a queue. -/
def forestDepth : List Tree → Nat
  | [] => 0
  | t :: q => max (depth t) (forestDepth q)

/-- Labels of the trees of a queue, depth by depth. -/
def forestOrder (q : List Tree) : List String :=
  (List.range (forestDepth q)).flatMap (forestLevel q)

/-- The string `names` after `names += (x + ", ")` for every `x` of a list in turn. -/
def joined (xs : List String) (names : String) : String :=
  xs.foldl (fun acc x => acc ++ (x ++ ", ")) names

/-- No tree of the queue is `nullptr`. -/
def NoNull (q : List Tree) : Prop := ∀ t ∈ q, t ≠ Tree.null

/-- State of the tree after a sequence of `insert` calls, the first call first, with the
booleans they returned. -/
def insertAllLog : Tree → List (Int × String) → Option (Tree × List Bool)
  | t, [] => some (t, [])
  | t, (k, v) :: rest =>
      match insert t k v with
      | none => none
      | some (t1, b) =>
          match insertAllLog t1 rest with
          | none => none
          | some (t2, bs) => some (t2, b :: bs)

example : insert .null 5 "a" = some (newNode 5 "a", true) := by decide
example : BST (.node (newNode 3 "x") 5 "a" 0 .null) := by decide
example : insertAll .null [(1, "a"), (2, "b"), (3, "c"), (4, "d"), (5, "e"), (6, "f"), (7, "g")]
    = some sample := by decide

example : traversalToString sample .INORDER = some "a, b, c, d, e, f, g" := by decide
example : _idToString 42 = "00000042" := by decide
example : searchName sample "b" = ["00000002"] := by decide
example : (insertAll .null [(30, "A"), (20, "B"), (10, "C")]).bind
    (fun t => traversalToString t .INORDER) = some "C, B, A" := by decide

example : validateCount "" = true := by decide
example : validateCount "12" = true := by decide
example : validateCount "1a" = false := by decide
example : validateCount "-1" = false := by decide
example : as_int "12" = some 12 := by decide
example : as_int "" = none := by decide
example : as_int "2147483647" = some 2147483647 := by decide
example : as_int "2147483648" = none := by decide
example : as_int "  -17x" = some (-17) := by decide

/-! ## In-order sequence and the BST property -/

@[simp]
theorem inorder_null : inorder .null = [] := rfl
@[simp]
theorem inorder_node (l : Tree) (id : Int) (name : String) (h : Int) (r : Tree) :
    inorder (.node l id name h r) = inorder l ++ (id, name) :: inorder r := rfl

theorem keys_node (l : Tree) (id : Int) (name : String) (h : Int) (r : Tree) :
    keys (.node l id name h r) = keys l ++ id :: keys r := by
  simp [keys]

theorem mem_keys {t : Tree} {k : Int} : k ∈ keys t ↔ ∃ v, (k, v) ∈ inorder t := by
  simp [keys]

/-- The BST property is strict sortedness of the in-order keys. -/
theorem bst_iff_sorted (t : Tree) : BST t ↔ (keys t).Pairwise (· < ·) := by
  induction t with
  | null => simp [BST, keys]
  | node l id name h r ihl ihr =>
    rw [BST, keys_node, List.pairwise_append, List.pairwise_cons, ihl, ihr]
    constructor
    · rintro ⟨h1, h2, h3, h4⟩
      refine ⟨h3, ⟨h2, h4⟩, ?_⟩
      intro a ha b hb
      rcases List.mem_cons.1 hb with rfl | hb
      · exact h1 a ha
      · exact lt_trans (h1 a ha) (h2 b hb)
    · rintro ⟨h3, ⟨h2, h4⟩, h5⟩
      exact ⟨fun x hx => h5 x hx id (List.mem_cons_self _ _), h2, h3, h4⟩

/-- Two trees with the same in-order entries are both search trees or neither is. -/
theorem bst_of_inorder_eq {t t1 : Tree} (h : inorder t1 = inorder t) (hb : BST t) : BST t1 := by
  rw [bst_iff_sorted] at hb ⊢
  simpa [keys, h] using hb

theorem inorder_rotateRight {t t1 : Tree} (h : _rotateRight t = some t1) :
    inorder t1 = inorder t := by
  unfold _rotateRight at h
  split at h
  · cases h; simp
  · cases h

theorem inorder_rotateLeft {t t1 : Tree} (h : _rotateLeft t = some t1) :
    inorder t1 = inorder t := by
  unfold _rotateLeft at h
  split at h
  · cases h; simp
  · cases h

theorem inorder_rotateRightLeft {t t1 : Tree} (h : _rotateRightLeft t = some t1) :
    inorder t1 = inorder t := by
  unfold _rotateRightLeft at h
  split at h
  · split at h
    · rename_i r1 hr
      rw [inorder_rotateLeft h]
      simp [inorder_rotateRight hr]
    · cases h
  · cases h

theorem inorder_rotateLeftRight {t t1 : Tree} (h : _rotateLeftRight t = some t1) :
    inorder t1 = inorder t := by
  unfold _rotateLeftRight at h
  split at h
  · split at h
    · rename_i l1 hl
      rw [inorder_rotateRight h]
      simp [inorder_rotateLeft hl]
    · cases h
  · cases h

theorem inorder_updateBalance {t t1 : Tree} (h : _updateBalance t = some t1) :
    inorder t1 = inorder t := by
  unfold _updateBalance at h
  split at h
  · cases h
  · simp only at h
    split_ifs at h with h1 h2
    · split at h
      · cases h
      · split_ifs at h
        · exact inorder_rotateRightLeft h
        · exact inorder_rotateLeft h
    · split at h
      · cases h
      · split_ifs at h
        · exact inorder_rotateLeftRight h
        · exact inorder_rotateRight h
    · cases h; rfl

theorem getHeight_ge (t : Tree) : -1 ≤ _getHeight t := by
  cases t with
  | null => simp [_getHeight]
  | node l id name h r => 
    have := getHeight_ge l
    simp only [_getHeight]; omega


theorem balanced_node {l : Tree} {id : Int} {name : String} {h : Int} {r : Tree} :
    Balanced (.node l id name h r) ↔
      (-1 ≤ _getHeight l - _getHeight r ∧ _getHeight l - _getHeight r ≤ 1) ∧
        Balanced l ∧ Balanced r := by
  simp only [Balanced, abs_le]

theorem getHeight_node (l : Tree) (id : Int) (name : String) (h : Int) (r : Tree) :
    _getHeight (.node l id name h r) = 1 + max (_getHeight l) (_getHeight r) := rfl

theorem getHeight_null : _getHeight .null = -1 := rfl

/-- Function `_updateBalance` never dereferences `nullptr` on a node: the child and the grandchild
that the chosen rotation pivots on exist. -/
theorem updateBalance_isSome (l : Tree) (id : Int) (name : String) (h : Int) (r : Tree) :
    ∃ t1, _updateBalance (.node l id name h r) = some t1 ∧ t1 ≠ .null := by
  have hl := getHeight_ge l
  have hr := getHeight_ge r
  simp only [_updateBalance]
  split_ifs with h1 h2
  · -- right-heavy
    cases r with
    | null => simp only [getHeight_null] at h1; omega
    | node rl rid rname rh rr =>
      simp only [_getBalance]
      split_ifs with h3
      · cases rl with
        | null =>
          have := getHeight_ge rr
          simp only [getHeight_null] at h3; omega
        | node a aid aname ah b => simp [_rotateRightLeft, _rotateRight, _rotateLeft]
      · simp [_rotateLeft]
  · cases l with
    | null => simp only [getHeight_null] at h2; omega
    | node ll lid lname lh lr =>
      simp only [_getBalance]
      split_ifs with h3
      · cases lr with
        | null =>
          have := getHeight_ge ll
          simp only [getHeight_null] at h3; omega
        | node a aid aname ah b => simp [_rotateLeftRight, _rotateRight, _rotateLeft]
      · simp [_rotateRight]
  · simp

theorem updateBalance_keep {l : Tree} {id : Int} {name : String} {h : Int} {r : Tree}
    (h1 : -1 ≤ _getHeight l - _getHeight r) (h2 : _getHeight l - _getHeight r ≤ 1) :
    _updateBalance (.node l id name h r) = some (.node l id name h r) := by
  simp only [_updateBalance]
  rw [if_neg (by omega), if_neg (by omega)]

/-- Rebalancing of a left-heavy node whose left child comes out of an insertion. -/
theorem updateBalance_left {l : Tree} (id : Int) (name : String) (h : Int) {r : Tree}
    (hl : Balanced l) (hr : Balanced r) (h2 : _getHeight l - _getHeight r = 2)
    (hb : bal l ≠ 0) :
    ∃ t1, _updateBalance (.node l id name h r) = some t1 ∧ Balanced t1 ∧
      _getHeight t1 = _getHeight l := by
  cases l with
  | null => simp [bal] at hb
  | node ll lid lname lh lr =>
    simp only [_updateBalance]
    rw [if_neg (by omega), if_pos (by omega)]
    simp only [_getBalance]
    rw [balanced_node] at hl
    obtain ⟨⟨hb1, hb2⟩, hll, hlr⟩ := hl
    simp only [bal] at hb
    simp only [getHeight_node] at h2
    split_ifs with h3
    · cases lr with
      | null =>
        have := getHeight_ge ll
        simp only [getHeight_null] at h3; omega
      | node a aid aname ah b =>
        rw [balanced_node] at hlr
        obtain ⟨⟨hc1, hc2⟩, ha, hb'⟩ := hlr
        simp only [getHeight_node] at h3 h2
        refine ⟨_, rfl, ?_, ?_⟩
        · simp only [balanced_node, getHeight_node]
          refine ⟨⟨?_, ?_⟩, ⟨⟨?_, ?_⟩, hll, ha⟩, ⟨⟨?_, ?_⟩, hb', hr⟩⟩ <;> omega
        · simp only [getHeight_node]; omega
    · refine ⟨_, rfl, ?_, ?_⟩
      · simp only [balanced_node, getHeight_node]
        refine ⟨⟨?_, ?_⟩, hll, ⟨⟨?_, ?_⟩, hlr, hr⟩⟩ <;> omega
      · simp only [getHeight_node]; omega

/-- Rebalancing of a right-heavy node whose right child comes out of an insertion. -/
theorem updateBalance_right (l : Tree) (id : Int) (name : String) (h : Int) {r : Tree}
    (hl : Balanced l) (hr : Balanced r) (h2 : _getHeight l - _getHeight r = -2)
    (hb : bal r ≠ 0) :
    ∃ t1, _updateBalance (.node l id name h r) = some t1 ∧ Balanced t1 ∧
      _getHeight t1 = _getHeight r := by
  cases r with
  | null => simp [bal] at hb
  | node rl rid rname rh rr =>
    simp only [_updateBalance]
    rw [if_pos (by omega)]
    simp only [_getBalance]
    rw [balanced_node] at hr
    obtain ⟨⟨hb1, hb2⟩, hrl, hrr⟩ := hr
    simp only [bal] at hb
    simp only [getHeight_node] at h2
    split_ifs with h3
    · cases rl with
      | null =>
        have := getHeight_ge rr
        simp only [getHeight_null] at h3; omega
      | node a aid aname ah b =>
        rw [balanced_node] at hrl
        obtain ⟨⟨hc1, hc2⟩, ha, hb'⟩ := hrl
        simp only [getHeight_node] at h3 h2
        refine ⟨_, rfl, ?_, ?_⟩
        · simp only [balanced_node, getHeight_node]
          refine ⟨⟨?_, ?_⟩, ⟨⟨?_, ?_⟩, hl, ha⟩, ⟨⟨?_, ?_⟩, hb', hrr⟩⟩ <;> omega
        · simp only [getHeight_node]; omega
    · refine ⟨_, rfl, ?_, ?_⟩
      · simp only [balanced_node, getHeight_node]
        refine ⟨⟨?_, ?_⟩, ⟨⟨?_, ?_⟩, hl, hrl⟩, hrr⟩ <;> omega
      · simp only [getHeight_node]; omega

/-- Invariant of `_insert` on a balanced tree: the result is balanced, and its height is the old
one, or one more with a root that leans to one side (unless the tree was empty). -/
theorem insert_balanced (t : Tree) (k : Int) (v : String) (ht : Balanced t) :
    ∃ t1, _insert t k v = some t1 ∧ Balanced t1 ∧
      (_getHeight t1 = _getHeight t ∨
        (_getHeight t1 = _getHeight t + 1 ∧ (t = .null ∨ bal t1 ≠ 0))) := by
  induction t with
  | null =>
    refine ⟨newNode k v, rfl, ?_, Or.inr ⟨?_, Or.inl rfl⟩⟩
    · simp [newNode, Balanced, _getHeight]
    · simp [newNode, _getHeight]
  | node l id name h r ihl ihr =>
    rw [balanced_node] at ht
    obtain ⟨⟨hb1, hb2⟩, hl, hr⟩ := ht
    have hgl := getHeight_ge l
    have hgr := getHeight_ge r
    simp only [_insert]
    split_ifs with hk
    · obtain ⟨l1, e1, bl1, hh⟩ := ihl hl
      rw [e1]
      simp only
      by_cases hrot : _getHeight l1 - _getHeight r = 2
      · have hne : bal l1 ≠ 0 := by
          rcases hh with hh | ⟨hh, rfl | hh2⟩
          · omega
          · simp only [getHeight_null] at hrot hh; omega
          · exact hh2
        obtain ⟨t1, e2, bt1, ht1⟩ := updateBalance_left id name h bl1 hr hrot hne
        refine ⟨t1, e2, bt1, Or.inl ?_⟩
        rw [ht1, getHeight_node]; omega
      · have h1 : -1 ≤ _getHeight l1 - _getHeight r := by omega
        have h2 : _getHeight l1 - _getHeight r ≤ 1 := by omega
        refine ⟨_, updateBalance_keep h1 h2, ?_, ?_⟩
        · rw [balanced_node]; exact ⟨⟨h1, h2⟩, bl1, hr⟩
        · simp only [getHeight_node, bal]
          omega
    · obtain ⟨r1, e1, br1, hh⟩ := ihr hr
      rw [e1]
      simp only
      by_cases hrot : _getHeight l - _getHeight r1 = -2
      · have hne : bal r1 ≠ 0 := by
          rcases hh with hh | ⟨hh, rfl | hh2⟩
          · omega
          · simp only [getHeight_null] at hrot hh; omega
          · exact hh2
        obtain ⟨t1, e2, bt1, ht1⟩ := updateBalance_right l id name h hl br1 hrot hne
        refine ⟨t1, e2, bt1, Or.inl ?_⟩
        rw [ht1, getHeight_node]; omega
      · have h1 : -1 ≤ _getHeight l - _getHeight r1 := by omega
        have h2 : _getHeight l - _getHeight r1 ≤ 1 := by omega
        refine ⟨_, updateBalance_keep h1 h2, ?_, ?_⟩
        · rw [balanced_node]; exact ⟨⟨h1, h2⟩, hl, br1⟩
        · simp only [getHeight_node, bal]
          omega

/-! ## Insertion and lookup -/

/-- Function `_insert` never dereferences `nullptr` and never returns `nullptr`. -/
theorem insert_isSome (t : Tree) (k : Int) (v : String) :
    ∃ t1, _insert t k v = some t1 ∧ t1 ≠ .null := by
  cases t with
  | null => exact ⟨newNode k v, rfl, by simp [newNode]⟩
  | node l id name h r =>
    simp only [_insert]
    split_ifs with hk
    · obtain ⟨l1, e1, -⟩ := insert_isSome l k v
      rw [e1]
      exact updateBalance_isSome l1 id name h r
    · obtain ⟨r1, e1, -⟩ := insert_isSome r k v
      rw [e1]
      exact updateBalance_isSome l id name h r1

theorem sorted_insert_mid {pre post : List Int} {k : Int}
    (h : (pre ++ post).Pairwise (· < ·)) (h1 : ∀ a ∈ pre, a < k) (h2 : ∀ b ∈ post, k < b) :
    (pre ++ k :: post).Pairwise (· < ·) := by
  rw [List.pairwise_append] at h ⊢
  obtain ⟨hp, hq, hpq⟩ := h
  refine ⟨hp, List.pairwise_cons.2 ⟨h2, hq⟩, ?_⟩
  intro a ha b hb
  rcases List.mem_cons.1 hb with rfl | hb
  · exact h1 a ha
  · exact hpq a ha b hb

/-- In-order sequence of `_insert` on a search tree that does not hold the key. -/
theorem insert_inorder (t : Tree) (k : Int) (v : String) (hb : BST t) (hk : k ∉ keys t) :
    ∃ t1, _insert t k v = some t1 ∧ ∃ pre post, inorder t = pre ++ post ∧
      inorder t1 = pre ++ (k, v) :: post ∧ (∀ e ∈ pre, e.1 < k) ∧ (∀ e ∈ post, k < e.1) := by
  induction t with
  | null => exact ⟨newNode k v, rfl, [], [], by simp [newNode]⟩
  | node l id name h r ihl ihr =>
    obtain ⟨hl, hr, bl, br⟩ := hb
    rw [keys_node] at hk
    simp only [List.mem_append, List.mem_cons, not_or] at hk
    obtain ⟨hkl, hkid, hkr⟩ := hk
    simp only [_insert]
    split_ifs with hlt
    · obtain ⟨l1, e1, pre, post, e2, e3, hpre, hpost⟩ := ihl bl hkl
      rw [e1]
      obtain ⟨t1, e4, -⟩ := updateBalance_isSome l1 id name h r
      refine ⟨t1, e4, pre, post ++ (id, name) :: inorder r, ?_, ?_, hpre, ?_⟩
      · simp [e2]
      · rw [inorder_updateBalance e4]; simp [e3]
      · intro e he
        rcases List.mem_append.1 he with he | he
        · exact hpost e he
        · rcases List.mem_cons.1 he with rfl | he
          · exact hlt
          · exact lt_trans hlt (hr e.1 (List.mem_map_of_mem _ he))
    · have hgt : id < k := lt_of_le_of_ne (not_lt.1 hlt) (Ne.symm hkid)
      obtain ⟨r1, e1, pre, post, e2, e3, hpre, hpost⟩ := ihr br hkr
      rw [e1]
      obtain ⟨t1, e4, -⟩ := updateBalance_isSome l id name h r1
      refine ⟨t1, e4, inorder l ++ (id, name) :: pre, post, ?_, ?_, ?_, hpost⟩
      · simp [e2]
      · rw [inorder_updateBalance e4]; simp [e3]
      · intro e he
        rcases List.mem_append.1 he with he | he
        · exact lt_trans (hl e.1 (List.mem_map_of_mem _ he)) hgt
        · rcases List.mem_cons.1 he with rfl | he
          · exact hgt
          · exact hpre e he

/-- A key that no entry holds leaves the in/out parameter of `_search` as it was. -/
theorem search_absent (t : Tree) (k : Int) (m : String) (hk : k ∉ keys t) :
    _search t k m = m := by
  induction t generalizing m with
  | null => rfl
  | node l id name h r ihl ihr =>
    rw [keys_node] at hk
    simp only [List.mem_append, List.mem_cons, not_or] at hk
    obtain ⟨hkl, hkid, hkr⟩ := hk
    simp only [_search, if_neg hkid, ihl _ hkl, ihr _ hkr, ite_self]

/-- On a search tree `_search` finds the label stored under the key. -/
theorem search_present (t : Tree) (k : Int) (v m : String) (hb : BST t)
    (hk : (k, v) ∈ inorder t) : _search t k m = v := by
  induction t generalizing m with
  | null => simp at hk
  | node l id name h r ihl ihr =>
    obtain ⟨hl, hr, bl, br⟩ := hb
    simp only [inorder_node, List.mem_append, List.mem_cons, Prod.mk.injEq] at hk
    simp only [_search]
    rcases hk with hk | ⟨rfl, rfl⟩ | hk
    · have hlt : k < id := hl k (List.mem_map_of_mem Prod.fst hk)
      rw [if_neg (ne_of_lt hlt), if_pos hlt, if_neg (not_lt.2 (le_of_lt hlt))]
      exact ihl _ bl hk
    · simp
    · have hgt : id < k := hr k (List.mem_map_of_mem Prod.fst hk)
      rw [if_neg (ne_of_gt hgt), if_neg (not_lt.2 (le_of_lt hgt)), if_pos hgt]
      exact ihr _ br hk


/-- One `insert` call on a balanced tree returns and leaves a balanced tree. -/
theorem insert_keeps_balanced (t : Tree) (k : Int) (v : String) (ht : Balanced t) :
    ∃ t1 b, insert t k v = some (t1, b) ∧ Balanced t1 := by
  unfold insert
  split_ifs with hs
  · exact ⟨t, false, rfl, ht⟩
  · obtain ⟨t1, e1, b1, -⟩ := insert_balanced t k v ht
    obtain ⟨t2, e2, hne⟩ := insert_isSome t k v
    rw [e1] at e2
    cases e2
    rw [e1]
    exact ⟨t1, true, by simp [hne], b1⟩

theorem insertAll_keeps_balanced (ops : List (Int × String)) (t : Tree) (ht : Balanced t) :
    ∃ t1, insertAll t ops = some t1 ∧ Balanced t1 := by
  induction ops generalizing t with
  | nil => exact ⟨t, rfl, ht⟩
  | cons op rest ih =>
    obtain ⟨k, v⟩ := op
    obtain ⟨t1, b, e1, b1⟩ := insert_keeps_balanced t k v ht
    simp only [insertAll, e1]
    exact ih t1 b1

/-- Result of `insert` for a key that a search tree does not hold. -/
theorem insert_absent (t : Tree) (k : Int) (v : String) (hb : BST t) (hk : k ∉ keys t) :
    ∃ t1, insert t k v = some (t1, true) ∧ BST t1 ∧
      ∃ pre post, inorder t = pre ++ post ∧ inorder t1 = pre ++ (k, v) :: post ∧
        (∀ e ∈ pre, e.1 < k) ∧ (∀ e ∈ post, k < e.1) := by
  obtain ⟨t1, e1, pre, post, e2, e3, hpre, hpost⟩ := insert_inorder t k v hb hk
  obtain ⟨t2, e4, hne⟩ := insert_isSome t k v
  rw [e1] at e4
  cases e4
  refine ⟨t1, ?_, ?_, pre, post, e2, e3, hpre, hpost⟩
  · simp [insert, search, search_absent t k "" hk, e1, hne]
  · rw [bst_iff_sorted] at hb ⊢
    have hs : keys t1 = pre.map Prod.fst ++ k :: post.map Prod.fst := by simp [keys, e3]
    rw [hs]
    apply sorted_insert_mid
    · simpa [keys, e2] using hb
    · intro a ha
      obtain ⟨e, he, rfl⟩ := List.mem_map.1 ha
      exact hpre e he
    · intro a ha
      obtain ⟨e, he, rfl⟩ := List.mem_map.1 ha
      exact hpost e he

/-! ## Removal by key and by rank -/

theorem inorder_plug (parent : Option Parent) (root : Tree) :
    inorder (plug parent root) = plugList parent (inorder root) := by
  cases parent with
  | none => rfl
  | some p =>
    simp only [plug, Parent.plug, plugList]
    split_ifs <;> rfl

theorem plug_some_ne_null (p : Parent) (root : Tree) : plug (some p) root ≠ .null := by
  simp only [plug, Parent.plug]
  split_ifs <;> simp

@[simp]
theorem inorder_setHeight (t : Tree) (h : Int) : inorder (setHeight t h) = inorder t := by
  cases t <;> rfl

@[simp]
theorem depth_setHeight (t : Tree) (h : Int) : depth (setHeight t h) = depth t := by
  cases t <;> rfl

@[simp]
theorem size_setHeight (t : Tree) (h : Int) : size (setHeight t h) = size t := by
  cases t <;> rfl

theorem inorder_updateHeight {t t1 : Tree} (h : _updateHeight t = some t1) :
    inorder t1 = inorder t := by
  cases t with
  | null => cases h
  | node l id name ht r =>
    simp only [_updateHeight, Option.some.injEq] at h
    subst h
    simp

theorem depth_updateHeight {t t1 : Tree} (h : _updateHeight t = some t1) :
    depth t1 = depth t := by
  cases t with
  | null => cases h
  | node l id name ht r =>
    simp only [_updateHeight, Option.some.injEq] at h
    subst h
    simp [depth]

theorem updateHeight_isSome {t : Tree} (ht : t ≠ .null) :
    ∃ l id name h r, _updateHeight t = some (.node l id name h r) := by
  cases t with
  | null => exact absurd rfl ht
  | node l id name h r => exact ⟨_, _, _, _, _, rfl⟩

/-- Result of `_getLeftmost` on a node with a left child: it returns the first entry in in-order, which
it takes out of the subtree. -/
theorem getLeftmost_spec (l : Tree) (id : Int) (name : String) (h : Int) (r : Tree)
    (hl : l ≠ .null) :
    ∃ ml mid mname mh mr root1, _getLeftmost (.node l id name h r)
        = some (.node ml mid mname mh mr, root1) ∧
      inorder (.node l id name h r) = (mid, mname) :: inorder root1 ∧
      root1 ≠ .null ∧ depth root1 ≤ depth (.node l id name h r) := by
  induction l generalizing id name h r with
  | null => exact absurd rfl hl
  | node ll lid lname lh lr ihl _ =>
    cases ll with
    | null =>
      refine ⟨.null, lid, lname, lh, lr, .node lr id name h r, rfl, by simp, by simp, ?_⟩
      simp only [depth]; omega
    | node a aid aname ah b =>
      obtain ⟨ml, mid, mname, mh, mr, l1, e1, e2, hne, hd⟩ :=
        ihl lid lname lh lr (by simp)
      refine ⟨ml, mid, mname, mh, mr, .node l1 id name h r, ?_, ?_, by simp, ?_⟩
      · simp only [_getLeftmost, e1]
      · rw [inorder_node, e2]; simp
      · simp only [depth] at hd ⊢; omega

theorem updateHeight_self {t : Tree} (ht : t ≠ .null) :
    ∃ t1, (Cursor.self t).updateHeight = some (.self t1) ∧ t1 ≠ .null ∧
      inorder t1 = inorder t ∧ depth t1 = depth t := by
  obtain ⟨l, id, name, h, r, e⟩ := updateHeight_isSome ht
  refine ⟨_, ?_, ?_, inorder_updateHeight e, depth_updateHeight e⟩
  · simp only [Cursor.updateHeight, e]
  · simp

/-- The statements `root = _deleteNode(root, parent); if (root) _updateHeight(root);` on a
node: either the node was a leaf and is gone, or it stays with the entries of its two subtrees. -/
theorem deleteNode_spec (l : Tree) (id : Int) (name : String) (h : Int) (r : Tree)
    (parent : Option Parent) :
    ∃ c c1, _deleteNode (.node l id name h r) parent = some c ∧ c.updateHeight = some c1 ∧
      ((l = .null ∧ r = .null ∧ parent = none ∧ c1 = .null) ∨
       (l = .null ∧ r = .null ∧ ∃ p t1, parent = some p ∧ c1 = .parent t1 ∧
          _updateHeight (p.plug .null) = some t1) ∨
       (¬ (l = .null ∧ r = .null) ∧ ∃ t1, c1 = .self t1 ∧ t1 ≠ .null ∧
          inorder t1 = inorder l ++ inorder r ∧ depth t1 ≤ depth (.node l id name h r))) := by
  have key : ∀ t : Tree, _deleteNode (.node l id name h r) parent = some (.self t) →
      t ≠ .null → inorder t = inorder l ++ inorder r → depth t ≤ depth (.node l id name h r) →
      ¬ (l = .null ∧ r = .null) →
      ∃ c c1, _deleteNode (.node l id name h r) parent = some c ∧ c.updateHeight = some c1 ∧
      ((l = .null ∧ r = .null ∧ parent = none ∧ c1 = .null) ∨
       (l = .null ∧ r = .null ∧ ∃ p t1, parent = some p ∧ c1 = .parent t1 ∧
          _updateHeight (p.plug .null) = some t1) ∨
       (¬ (l = .null ∧ r = .null) ∧ ∃ t1, c1 = .self t1 ∧ t1 ≠ .null ∧
          inorder t1 = inorder l ++ inorder r ∧ depth t1 ≤ depth (.node l id name h r))) := by
    intro t e hne hi hd hleaf
    obtain ⟨t1, e1, hne1, hi1, hd1⟩ := updateHeight_self hne
    exact ⟨_, _, e, e1, Or.inr (Or.inr ⟨hleaf, t1, rfl, hne1, hi1.trans hi, hd1 ▸ hd⟩)⟩
  cases l with
  | null =>
    cases r with
    | null =>
      cases parent with
      | none => exact ⟨.null, .null, rfl, rfl, Or.inl ⟨rfl, rfl, rfl, rfl⟩⟩
      | some p =>
        obtain ⟨pl, pid, pname, ph, pr, e⟩ := updateHeight_isSome (plug_some_ne_null p .null)
        simp only [plug] at e
        refine ⟨.parent (p.plug .null), .parent _, rfl, ?_,
          Or.inr (Or.inl ⟨rfl, rfl, p, _, rfl, rfl, e⟩)⟩
        simp only [Cursor.updateHeight, e]
    | node rl rid rname rh rr =>
      refine key (.node rl rid rname h rr) (by simp only [_deleteNode]) (by simp) (by simp)
        ?_ (by simp)
      simp only [depth]; omega
  | node ll lid lname lh lr =>
    cases r with
    | null =>
      refine key (.node ll lid lname h lr) (by simp only [_deleteNode]) (by simp) (by simp)
        ?_ (by simp)
      simp only [depth]; omega
    | node rl rid rname rh rr =>
      cases rl with
      | null =>
        refine key (.node (.node ll lid lname lh lr) rid rname h rr) (by simp only [_deleteNode])
          (by simp) (by simp) ?_ (by simp)
        simp only [depth]; omega
      | node a aid aname ah b =>
        obtain ⟨ml, mid, mname, mh, mr, right1, e1, e2, hne, hd⟩ :=
          getLeftmost_spec (.node a aid aname ah b) rid rname rh rr (by simp)
        refine key (.node (.node ll lid lname lh lr) mid mname h right1)
          (by simp only [_deleteNode, e1]) (by simp) ?_ ?_ (by simp)
        · rw [inorder_node, e2]
        · simp only [depth] at hd ⊢; omega

/-- Result of `_remove` for a key that no entry holds: nothing changes and `false` is returned. -/
theorem remove_absent (root : Tree) (parent : Option Parent) (k : Int) (hk : k ∉ keys root) :
    _remove root parent k = some (plug parent root, false) := by
  induction root generalizing parent with
  | null => rfl
  | node l id name h r ihl ihr =>
    rw [keys_node] at hk
    simp only [List.mem_append, List.mem_cons, not_or] at hk
    obtain ⟨hkl, hkid, hkr⟩ := hk
    simp only [_remove]
    split_ifs with h1 h2
    · rw [ihl _ hkl]; rfl
    · rw [ihr _ hkr]; rfl
    · exact absurd (le_antisymm (not_lt.1 h2) (not_lt.1 h1)) hkid

/-- Result of `_remove` for a key that an entry of a search tree holds: `true` is returned and that entry
is taken out of the in-order sequence. -/
theorem remove_present (root : Tree) (parent : Option Parent) (k : Int) (hb : BST root)
    (hk : k ∈ keys root) :
    ∃ t1, _remove root parent k = some (t1, true) ∧ ∃ pre v post,
      inorder root = pre ++ (k, v) :: post ∧ inorder t1 = plugList parent (pre ++ post) := by
  induction root generalizing parent with
  | null => simp [keys] at hk
  | node l id name h r ihl ihr =>
    obtain ⟨hl, hr, bl, br⟩ := hb
    rw [keys_node] at hk
    simp only [List.mem_append, List.mem_cons] at hk
    simp only [_remove]
    split_ifs with h1 h2
    · have hkl : k ∈ keys l := by
        rcases hk with hk | rfl | hk
        · exact hk
        · exact absurd h1 (lt_irrefl _)
        · exact absurd (lt_trans (hr k hk) h1) (lt_irrefl _)
      obtain ⟨t1, e1, pre, v, post, e2, e3⟩ := ihl (some ⟨true, id, name, h, r⟩) bl hkl
      rw [e1]
      refine ⟨_, rfl, pre, v, post ++ (id, name) :: inorder r, by simp [e2], ?_⟩
      rw [inorder_plug, e3]
      simp [plugList]
    · have hkr : k ∈ keys r := by
        rcases hk with hk | rfl | hk
        · exact absurd (lt_trans h2 (hl k hk)) (lt_irrefl _)
        · exact absurd h2 (lt_irrefl _)
        · exact hk
      obtain ⟨t1, e1, pre, v, post, e2, e3⟩ := ihr (some ⟨false, id, name, h, l⟩) br hkr
      rw [e1]
      refine ⟨_, rfl, inorder l ++ (id, name) :: pre, v, post, by simp [e2], ?_⟩
      rw [inorder_plug, e3]
      simp [plugList]
    · have hkid : k = id := le_antisymm (not_lt.1 h2) (not_lt.1 h1)
      subst hkid
      obtain ⟨c, c1, e1, e2, hc⟩ := deleteNode_spec l k name h r parent
      rw [e1]
      simp only [e2]
      rcases hc with ⟨rfl, rfl, rfl, rfl⟩ | ⟨rfl, rfl, p, t1, rfl, rfl, e3⟩ |
        ⟨-, t1, rfl, -, e3, -⟩
      · exact ⟨_, rfl, [], name, [], by simp, by simp [plugList]⟩
      · refine ⟨_, rfl, [], name, [], by simp, ?_⟩
        rw [inorder_updateHeight e3]
        exact inorder_plug (some p) .null
      · refine ⟨_, rfl, inorder l, name, inorder r, by simp, ?_⟩
        rw [inorder_plug, e3]

/-- A walk of `_removeInorder` whose counter does not pass through zero: nothing changes, the
counter goes down by the number of nodes, and `false` is returned. -/
theorem removeInorder_walk (root : Tree) (fuel : Nat) (parent : Option Parent) (count : Int)
    (hf : depth root + 1 ≤ fuel) (hc : count < 0 ∨ (size root : Int) ≤ count) :
    _removeInorder fuel root parent count
      = .done (plug parent root, count - (size root : Int), false) := by
  induction root generalizing fuel parent count with
  | null =>
    cases fuel with
    | zero => omega
    | succ f => simp [_removeInorder, size]
  | node l id name h r ihl ihr =>
    cases fuel with
    | zero => omega
    | succ f =>
      simp only [depth] at hf
      simp only [size, Nat.cast_add, Nat.cast_one] at hc
      have e1 := ihl f (some ⟨true, id, name, h, r⟩) count (by omega) (by omega)
      have e2 := ihr f (some ⟨false, id, name, h, l⟩) (count - (size l : Int) - 1)
        (by omega) (by omega)
      have hne : count - (size l : Int) ≠ 0 := by omega
      simp only [_removeInorder, e1, plug, Parent.plug, if_true, if_neg hne, e2]
      simp [size]
      omega

theorem length_inorder (t : Tree) : (inorder t).length = size t := by
  induction t with
  | null => rfl
  | node l id name h r ihl ihr => simp [size, ihl, ihr]; omega

theorem depth_plug_mono (parent : Option Parent) {a b : Tree} (h : depth a ≤ depth b) :
    depth (plug parent a) ≤ depth (plug parent b) := by
  cases parent with
  | none => exact h
  | some p =>
    simp only [plug, Parent.plug]
    split_ifs <;> simp only [depth] <;> omega

theorem depth_plug_null_right (p : Parent) {pl : Tree} {pid : Int} {pname : String} {ph : Int}
    {pr : Tree} (h : _updateHeight (p.plug .null) = some (.node pl pid pname ph pr)) :
    depth pr ≤ depth p.other := by
  have hd := depth_updateHeight h
  simp only [Parent.plug] at hd h
  split_ifs at hd h <;> simp only [depth] at hd <;> 
    simp only [_updateHeight, Option.some.injEq, Tree.node.injEq] at h <;>
    obtain ⟨-, -, -, -, rfl⟩ := h <;> simp [depth]

/-- A walk of `_removeInorder` whose counter reaches zero at the node of in-order index `i`:
`true` is returned, that entry is taken out of the in-order sequence, and the counter ends
below zero. -/
theorem removeInorder_hit (root : Tree) (fuel : Nat) (parent : Option Parent) (i : Nat)
    (hf : depth root + 2 ≤ fuel) (hp : ∀ p, parent = some p → depth p.other + 2 ≤ fuel)
    (hi : i < size root) :
    ∃ t1 c1, _removeInorder fuel root parent (i : Int) = .done (t1, c1, true) ∧ c1 < 0 ∧
      inorder t1 = plugList parent ((inorder root).eraseIdx i) ∧
      depth t1 ≤ depth (plug parent root) := by
  induction root generalizing fuel parent i with
  | null => simp [size] at hi
  | node l id name h r ihl ihr =>
    cases fuel with
    | zero => omega
    | succ f =>
      simp only [depth] at hf
      simp only [size] at hi
      rcases lt_trichotomy i (size l) with hlt | heq | hgt
      · -- the entry is in the left subtree
        obtain ⟨root1, c1, e1, hc1, e2, hd⟩ :=
          ihl f (some ⟨true, id, name, h, r⟩) i (by omega)
            (by intro p hp'; cases hp'; simp only; omega) hlt
        simp only [plugList, if_true] at e2
        cases root1 with
        | null => simp at e2
        | node sl sid sname sh sr =>
          simp only [plug, Parent.plug, if_true, depth] at hd
          have e3 := removeInorder_walk sr f (some ⟨false, sid, sname, sh, sl⟩) (c1 - 1)
            (by omega) (by omega)
          refine ⟨plug parent (.node sl sid sname sh sr), c1 - 1 - (size sr : Int), ?_, ?_, ?_, ?_⟩
          · simp only [_removeInorder, e1, if_neg (ne_of_lt hc1), e3]
            simp [plug, Parent.plug]
          · have := Int.natCast_nonneg (size sr); omega
          · rw [inorder_plug, e2, inorder_node,
              List.eraseIdx_append_of_lt_length (by rw [length_inorder]; exact hlt)]
          · apply depth_plug_mono
            simp only [depth]; omega
      · -- the entry is this node
        subst heq
        have e1 : _removeInorder f l (some ⟨true, id, name, h, r⟩) (size l : Int)
            = .done (.node l id name h r, 0, false) := by
          rw [removeInorder_walk l f (some ⟨true, id, name, h, r⟩) (size l : Int)
            (by omega) (Or.inr le_rfl)]
          simp [plug, Parent.plug]
        obtain ⟨c, c1, e2, e3, hc⟩ := deleteNode_spec l id name h r parent
        have herase : (inorder (.node l id name h r)).eraseIdx (size l)
            = inorder l ++ inorder r := by
          rw [inorder_node, List.eraseIdx_append_of_length_le (by rw [length_inorder]),
            length_inorder, Nat.sub_self, List.eraseIdx_cons_zero]
        rcases hc with ⟨rfl, rfl, rfl, rfl⟩ | ⟨rfl, rfl, p, t1, rfl, rfl, e4⟩ |
          ⟨-, t1, rfl, hne, e4, hd⟩
        · refine ⟨.null, 0 - 1, ?_, by omega, ?_, by simp [depth]⟩
          · simp only [_removeInorder, e1, eq_self_iff_true, if_true, e2, e3]
            simp
          · rw [herase]; rfl
        · obtain ⟨pl, pid, pname, ph, pr, e5⟩ :=
            updateHeight_isSome (plug_some_ne_null p .null)
          simp only [plug] at e5
          rw [e5] at e4
          cases e4
          have hpr := depth_plug_null_right p e5
          have hpo := hp p rfl
          have e6 := removeInorder_walk pr f (some ⟨false, pid, pname, ph, pl⟩)
            (0 - 1) (by omega) (Or.inl (by omega))
          refine ⟨.node pl pid pname ph pr, 0 - 1 - (size pr : Int), ?_, ?_, ?_, ?_⟩
          · simp only [_removeInorder, e1, eq_self_iff_true, if_true, e2, e3, e6]
            simp [plug, Parent.plug]
          · have := Int.natCast_nonneg (size pr); omega
          · rw [inorder_updateHeight e5, herase]
            exact inorder_plug (some p) .null
          · rw [depth_updateHeight e5]
            exact depth_plug_mono (some p) (by simp [depth])
        · cases t1 with
          | null => exact absurd rfl hne
          | node sl sid sname sh sr =>
            simp only [depth] at hd
            have e6 := removeInorder_walk sr f (some ⟨false, sid, sname, sh, sl⟩)
              (0 - 1) (by omega) (Or.inl (by omega))
            refine ⟨plug parent (.node sl sid sname sh sr), 0 - 1 - (size sr : Int),
              ?_, ?_, ?_, ?_⟩
            · simp only [_removeInorder, e1, eq_self_iff_true, if_true, e2, e3, e6]
              simp [plug, Parent.plug]
            · have := Int.natCast_nonneg (size sr); omega
            · rw [inorder_plug, e4, herase]
            · apply depth_plug_mono
              simp only [depth]; omega
      · -- the entry is in the right subtree
        have e1 : _removeInorder f l (some ⟨true, id, name, h, r⟩) (i : Int)
            = .done (.node l id name h r, (i : Int) - (size l : Int), false) := by
          rw [removeInorder_walk l f (some ⟨true, id, name, h, r⟩) (i : Int)
            (by omega) (Or.inr (by omega))]
          simp [plug, Parent.plug]
        have hne : (i : Int) - (size l : Int) ≠ 0 := by omega
        have hj : (i : Int) - (size l : Int) - 1 = ((i - size l - 1 : Nat) : Int) := by omega
        obtain ⟨t1, c1, e2, hc1, e3, hd⟩ :=
          ihr f (some ⟨false, id, name, h, l⟩) (i - size l - 1) (by omega)
            (by intro p hp'; cases hp'; simp only; omega) (by omega)
        simp only [plugList] at e3
        simp only [plug, Parent.plug, depth] at hd
        refine ⟨plug parent t1, c1, ?_, hc1, ?_, ?_⟩
        · simp only [_removeInorder, e1, if_neg hne, hj, e2]
          simp
        · rw [inorder_plug, e3, inorder_node,
            List.eraseIdx_append_of_length_le (by rw [length_inorder]; omega), length_inorder]
          have : i - size l = (i - size l - 1) + 1 := by omega
          rw [this, List.eraseIdx_cons_succ]
          simp
        · apply depth_plug_mono
          simpa [depth] using hd

/-- A second `insert` of a key just stored under a non-empty label is rejected. -/
theorem insert_again_rejected (t : Tree) (k : Int) (v1 v2 : String) (hb : BST t)
    (hk : k ∉ keys t) (hv : v1 ≠ "") :
    ∃ t1, insert t k v1 = some (t1, true) ∧ insert t1 k v2 = some (t1, false) := by
  obtain ⟨t1, e1, b1, pre, post, -, e3, -, -⟩ := insert_absent t k v1 hb hk
  refine ⟨t1, e1, ?_⟩
  have hs : search t1 k = v1 := search_present t1 k v1 "" b1 (by rw [e3]; simp)
  simp [insert, hs, hv]

theorem sorted_remove_mid {pre post : List Int} {k : Int}
    (h : (pre ++ k :: post).Pairwise (· < ·)) :
    (pre ++ post).Pairwise (· < ·) ∧ k ∉ pre ++ post := by
  rw [List.pairwise_append, List.pairwise_cons] at h
  obtain ⟨hp, ⟨hk, hq⟩, hpq⟩ := h
  refine ⟨List.pairwise_append.2 ⟨hp, hq, fun a ha b hb => hpq a ha b (List.mem_cons_of_mem _ hb)⟩, ?_⟩
  intro hmem
  rcases List.mem_append.1 hmem with hm | hm
  · exact lt_irrefl _ (hpq k hm k (List.mem_cons_self _ _))
  · exact lt_irrefl _ (hk k hm)

/-- Result of `remove` for a key that an entry of a search tree holds. -/
theorem remove_spec (t : Tree) (k : Int) (hb : BST t) (hk : k ∈ keys t) :
    ∃ t1, remove t k = some (t1, true) ∧ BST t1 ∧ k ∉ keys t1 ∧ ∃ pre v post,
      inorder t = pre ++ (k, v) :: post ∧ inorder t1 = pre ++ post := by
  cases t with
  | null => simp [keys] at hk
  | node l id name h r =>
    obtain ⟨t1, e1, pre, v, post, e2, e3⟩ := remove_present (.node l id name h r) none k hb hk
    simp only [plugList] at e3
    have key : ∀ t2 : Tree, inorder t2 = pre ++ post → BST t2 ∧ k ∉ keys t2 := by
      intro t2 h2
      rw [bst_iff_sorted] at hb ⊢
      have hs : keys (.node l id name h r) = pre.map Prod.fst ++ k :: post.map Prod.fst := by
        simp [keys, e2]
      rw [hs] at hb
      have := sorted_remove_mid hb
      simpa [keys, h2] using this
    simp only [remove, e1]
    by_cases hleaf : l = .null ∧ r = .null
    · obtain ⟨rfl, rfl⟩ := hleaf
      have hnil : pre = [] ∧ post = [] := by
        have hlen := congrArg List.length e2
        simp at hlen
        constructor <;> apply List.eq_nil_of_length_eq_zero <;> omega
      obtain ⟨rfl, rfl⟩ := hnil
      refine ⟨.null, by simp, ?_, ?_, [], v, [], e2, rfl⟩
      · exact (key .null rfl).1
      · exact (key .null rfl).2
    · refine ⟨t1, ?_, (key t1 e3).1, (key t1 e3).2, pre, v, post, e2, e3⟩
      have : (decide (l = .null) && decide (r = .null)) = false := by
        simp only [Bool.and_eq_false_iff, decide_eq_false_iff_not]
        tauto
      simp [this]

/-- In a list whose keys go up strictly, the entry at index `r` has exactly `r` entries of
smaller key. -/
theorem count_smaller_of_sorted (xs : List (Int × String)) (r : Nat)
    (hs : (xs.map Prod.fst).Pairwise (· < ·)) (hr : r < xs.length) :
    ∃ e, xs[r]? = some e ∧ (xs.filter (fun x => decide (x.1 < e.1))).length = r := by
  induction xs generalizing r with
  | nil => simp at hr
  | cons x rest ih =>
    rw [List.map_cons, List.pairwise_cons] at hs
    obtain ⟨hx, hrest⟩ := hs
    cases r with
    | zero =>
      refine ⟨x, List.getElem?_cons_zero, ?_⟩
      rw [List.length_eq_zero, List.filter_eq_nil_iff]
      intro a ha
      rcases List.mem_cons.1 ha with rfl | ha
      · simp
      · have := hx a.1 (List.mem_map_of_mem _ ha)
        simp only [decide_eq_true_eq, not_lt]
        exact le_of_lt this
    | succ r' =>
      obtain ⟨e, he, hcount⟩ := ih r' hrest (by simpa using hr)
      refine ⟨e, by simpa using he, ?_⟩
      have hmem : e ∈ rest := List.getElem?_mem he
      have hlt : x.1 < e.1 := hx e.1 (List.mem_map_of_mem _ hmem)
      rw [List.filter_cons_of_pos (by simpa using hlt), List.length_cons, hcount]

/-- Result of `removeInorder` for a rank below the number of entries. -/
theorem removeInorder_spec (t : Tree) (fuel r : Nat) (hr : r < size t)
    (hf : depth t + 2 ≤ fuel) :
    ∃ t1, removeInorder fuel t (r : Int) = .done (t1, true) ∧
      inorder t1 = (inorder t).eraseIdx r := by
  cases t with
  | null => simp [size] at hr
  | node l id name h rt =>
    obtain ⟨t1, c1, e1, -, e2, -⟩ :=
      removeInorder_hit (.node l id name h rt) fuel none r hf (by simp) hr
    simp only [plugList] at e2
    simp only [removeInorder, e1]
    by_cases hleaf : l = .null ∧ rt = .null
    · obtain ⟨rfl, rfl⟩ := hleaf
      simp only [size] at hr
      have hr0 : r = 0 := by omega
      subst hr0
      exact ⟨.null, by simp, by simp⟩
    · refine ⟨t1, ?_, e2⟩
      have : (decide (l = .null) && decide (rt = .null)) = false := by
        simp only [Bool.and_eq_false_iff, decide_eq_false_iff_not]
        tauto
      simp [this]

/-! ## Shapes and balance after a removal -/

@[simp]
theorem shape_setHeight (t : Tree) (h : Int) : shape (setHeight t h) = shape t := by
  cases t <;> rfl

theorem shape_updateHeight {t t1 : Tree} (h : _updateHeight t = some t1) :
    shape t1 = shape t := by
  cases t with
  | null => cases h
  | node l id name ht r =>
    simp only [_updateHeight, Option.some.injEq] at h
    subst h
    simp [shape]

theorem getHeight_shape (t : Tree) : _getHeight (shape t) = _getHeight t := by
  induction t with
  | null => rfl
  | node l id name h r ihl ihr => simp only [shape, _getHeight, ihl, ihr]

theorem getHeight_of_shape_eq {a b : Tree} (h : shape a = shape b) :
    _getHeight a = _getHeight b := by
  rw [← getHeight_shape a, ← getHeight_shape b, h]

theorem within2_shape (t : Tree) : Within2 (shape t) ↔ Within2 t := by
  induction t with
  | null => rfl
  | node l id name h r ihl ihr =>
    simp only [shape, Within2, getHeight_shape, ihl, ihr]

theorem within2_of_shape_eq {a b : Tree} (h : shape a = shape b) (hb : Within2 b) :
    Within2 a := by
  rw [← within2_shape] at hb ⊢
  rw [h]; exact hb

theorem shape_plug_congr (parent : Option Parent) {a b : Tree} (h : shape a = shape b) :
    shape (plug parent a) = shape (plug parent b) := by
  cases parent with
  | none => exact h
  | some p =>
    simp only [plug, Parent.plug]
    split_ifs <;> simp [shape, h]

theorem within2_node {l : Tree} {id : Int} {name : String} {h : Int} {r : Tree} :
    Within2 (.node l id name h r) ↔
      (-2 ≤ _getHeight l - _getHeight r ∧ _getHeight l - _getHeight r ≤ 2) ∧
        Within2 l ∧ Within2 r := by
  simp only [Within2, abs_le]

theorem within2_of_balanced (t : Tree) (h : Balanced t) : Within2 t := by
  induction t with
  | null => trivial
  | node l id name ht r ihl ihr =>
    rw [balanced_node] at h
    rw [within2_node]
    obtain ⟨⟨h1, h2⟩, hl, hr⟩ := h
    exact ⟨⟨by omega, by omega⟩, ihl hl, ihr hr⟩

/-- Balance of the subtree that `_getLeftmost` leaves behind. -/
theorem getLeftmost_within (l : Tree) (id : Int) (name : String) (h : Int) (r : Tree)
    (hl : l ≠ .null) (hb : Balanced (.node l id name h r)) :
    ∃ m root1, _getLeftmost (.node l id name h r) = some (m, root1) ∧ Within2 root1 ∧
      (_getHeight root1 = _getHeight (.node l id name h r) ∨
        _getHeight root1 = _getHeight (.node l id name h r) - 1) := by
  induction l generalizing id name h r with
  | null => exact absurd rfl hl
  | node ll lid lname lh lr ihl _ =>
    rw [balanced_node] at hb
    obtain ⟨⟨h1, h2⟩, bl, br⟩ := hb
    cases ll with
    | null =>
      rw [balanced_node] at bl
      obtain ⟨⟨h3, h4⟩, -, blr⟩ := bl
      have := getHeight_ge lr
      have := getHeight_ge r
      refine ⟨_, .node lr id name h r, rfl, ?_, ?_⟩
      · rw [within2_node]
        simp only [getHeight_node, getHeight_null] at h1 h2 h3 h4
        exact ⟨⟨by omega, by omega⟩, within2_of_balanced _ blr, within2_of_balanced _ br⟩
      · simp only [getHeight_node, getHeight_null] at h1 h2 h3 h4 ⊢
        omega
    | node a aid aname ah b =>
      obtain ⟨m, l1, e1, w1, hh⟩ := ihl lid lname lh lr (by simp) bl
      refine ⟨m, .node l1 id name h r, by simp only [_getLeftmost, e1], ?_, ?_⟩
      · rw [within2_node]
        exact ⟨⟨by omega, by omega⟩, w1, within2_of_balanced _ br⟩
      · simp only [getHeight_node] at hh ⊢
        omega

/-- Balance of the node that `_deleteNode` leaves in place. -/
theorem deleteNode_within (l : Tree) (id : Int) (name : String) (h : Int) (r : Tree)
    (parent : Option Parent) (t : Tree) (hb : Balanced (.node l id name h r))
    (hd : _deleteNode (.node l id name h r) parent = some (.self t)) :
    Within2 t ∧ (_getHeight t = _getHeight (.node l id name h r) ∨
      _getHeight t = _getHeight (.node l id name h r) - 1) := by
  rw [balanced_node] at hb
  obtain ⟨⟨h1, h2⟩, bl, br⟩ := hb
  cases l with
  | null =>
    cases r with
    | null => cases parent <;> simp [_deleteNode] at hd
    | node rl rid rname rh rr =>
      simp only [_deleteNode, Option.some.injEq, Cursor.self.injEq] at hd
      subst hd
      refine ⟨within2_of_balanced (.node rl rid rname h rr) ?_, ?_⟩
      · rw [balanced_node] at br ⊢; exact br
      · have := getHeight_ge rl
        have := getHeight_ge rr
        simp only [getHeight_node, getHeight_null] at h1 h2 ⊢
        omega
  | node ll lid lname lh lr =>
    cases r with
    | null =>
      simp only [_deleteNode, Option.some.injEq, Cursor.self.injEq] at hd
      subst hd
      refine ⟨within2_of_balanced (.node ll lid lname h lr) ?_, ?_⟩
      · rw [balanced_node] at bl ⊢; exact bl
      · have := getHeight_ge ll
        have := getHeight_ge lr
        simp only [getHeight_node, getHeight_null] at h1 h2 ⊢
        omega
    | node rl rid rname rh rr =>
      cases rl with
      | null =>
        simp only [_deleteNode, Option.some.injEq, Cursor.self.injEq] at hd
        subst hd
        rw [balanced_node] at br
        obtain ⟨⟨h3, h4⟩, -, brr⟩ := br
        have := getHeight_ge rr
        simp only [getHeight_node, getHeight_null] at h1 h2 h3 h4
        refine ⟨?_, ?_⟩
        · rw [within2_node]
          simp only [getHeight_node]
          exact ⟨⟨by omega, by omega⟩, within2_of_balanced _ bl, within2_of_balanced _ brr⟩
        · simp only [getHeight_node, getHeight_null]
          omega
      | node a aid aname ah b =>
        obtain ⟨m, right1, e1, w1, hh⟩ :=
          getLeftmost_within (.node a aid aname ah b) rid rname rh rr (by simp) br
        simp only [_deleteNode, e1] at hd
        cases m with
        | null => simp at hd
        | node ml mid mname mh mr =>
          simp only [Option.some.injEq, Cursor.self.injEq] at hd
          subst hd
          refine ⟨?_, ?_⟩
          · rw [within2_node]
            exact ⟨⟨by omega, by omega⟩, within2_of_balanced _ bl, w1⟩
          · simp only [getHeight_node] at hh ⊢
            omega

/-- Result of `_remove` on any tree: the call returns; `false` means that nothing changed; and
up to `height` fields the owner is left with a subtree `r1` in place of `root`, which on a
balanced `root` is at most one lower and has balance factors within `{-2, …, 2}`. -/
theorem remove_general (root : Tree) (parent : Option Parent) (k : Int) :
    ∃ t1 b, _remove root parent k = some (t1, b) ∧ (b = false → t1 = plug parent root) ∧
      ∃ r1, shape t1 = shape (plug parent r1) ∧
        (Balanced root → Within2 r1 ∧
          (_getHeight r1 = _getHeight root ∨ _getHeight r1 = _getHeight root - 1)) := by
  induction root generalizing parent with
  | null =>
    exact ⟨_, false, rfl, fun _ => rfl, .null, rfl, fun _ => ⟨trivial, Or.inl rfl⟩⟩
  | node l id name h r ihl ihr =>
    simp only [_remove]
    split_ifs with h1 h2
    · obtain ⟨t1, b, e1, hf, r1, hs, hw⟩ := ihl (some ⟨true, id, name, h, r⟩)
      rw [e1]
      refine ⟨_, b, rfl, ?_, t1, rfl, ?_⟩
      · intro hb; rw [hf hb]; rfl
      · intro hb
        rw [balanced_node] at hb
        obtain ⟨⟨hb1, hb2⟩, bl, br⟩ := hb
        obtain ⟨w1, hh⟩ := hw bl
        have hs2 : shape t1 = shape (.node r1 id name h r) := hs
        refine ⟨within2_of_shape_eq hs2 ?_, ?_⟩
        · rw [within2_node]
          exact ⟨⟨by omega, by omega⟩, w1, within2_of_balanced _ br⟩
        · rw [getHeight_of_shape_eq hs2]
          simp only [getHeight_node]
          omega
    · obtain ⟨t1, b, e1, hf, r1, hs, hw⟩ := ihr (some ⟨false, id, name, h, l⟩)
      rw [e1]
      refine ⟨_, b, rfl, ?_, t1, rfl, ?_⟩
      · intro hb; rw [hf hb]; rfl
      · intro hb
        rw [balanced_node] at hb
        obtain ⟨⟨hb1, hb2⟩, bl, br⟩ := hb
        obtain ⟨w1, hh⟩ := hw br
        have hs2 : shape t1 = shape (.node l id name h r1) := hs
        refine ⟨within2_of_shape_eq hs2 ?_, ?_⟩
        · rw [within2_node]
          exact ⟨⟨by omega, by omega⟩, within2_of_balanced _ bl, w1⟩
        · rw [getHeight_of_shape_eq hs2]
          simp only [getHeight_node]
          omega
    · obtain ⟨c, c1, e1, e2, hc⟩ := deleteNode_spec l id name h r parent
      rw [e1]
      simp only [e2]
      rcases hc with ⟨rfl, rfl, rfl, rfl⟩ | ⟨rfl, rfl, p, t1, rfl, rfl, e3⟩ |
        ⟨hleaf, t1, rfl, -, -, -⟩
      · exact ⟨_, true, rfl, by simp, .null, rfl,
          fun _ => ⟨trivial, Or.inr (by simp [_getHeight])⟩⟩
      · refine ⟨_, true, rfl, by simp, .null, ?_,
          fun _ => ⟨trivial, Or.inr (by simp [_getHeight])⟩⟩
        exact shape_updateHeight e3
      · refine ⟨_, true, rfl, by simp, t1, rfl, ?_⟩
        intro hb
        cases c with
        | null => simp [Cursor.updateHeight] at e2
        | parent t0 =>
          simp only [Cursor.updateHeight] at e2
          split at e2 <;> simp at e2
        | self t0 =>
          obtain ⟨w0, hh⟩ := deleteNode_within l id name h r parent t0 hb e1
          simp only [Cursor.updateHeight] at e2
          split at e2
          · rename_i t2 e4
            simp only [Option.some.injEq, Cursor.self.injEq] at e2
            subst e2
            have hs := shape_updateHeight e4
            exact ⟨within2_of_shape_eq hs w0, by rw [getHeight_of_shape_eq hs]; exact hh⟩
          · cases e2

/-- Shape of the result of a walk of `_removeInorder` whose counter reaches zero at the node
of in-order index `i`: up to `height` fields the owner is left with a subtree `r1` in place of
`root`, which on a balanced `root` is at most one lower and has balance factors within
`{-2, …, 2}`. -/
theorem removeInorder_hit_shape (root : Tree) (fuel : Nat) (parent : Option Parent) (i : Nat)
    (hf : depth root + 2 ≤ fuel) (hp : ∀ p, parent = some p → depth p.other + 2 ≤ fuel)
    (hi : i < size root) :
    ∃ t1 c1, _removeInorder fuel root parent (i : Int) = .done (t1, c1, true) ∧
      ∃ r1, shape t1 = shape (plug parent r1) ∧
        (Balanced root → Within2 r1 ∧
          (_getHeight r1 = _getHeight root ∨ _getHeight r1 = _getHeight root - 1)) := by
  induction root generalizing fuel parent i with
  | null => simp [size] at hi
  | node l id name h r ihl ihr =>
    cases fuel with
    | zero => omega
    | succ f =>
      simp only [depth] at hf
      simp only [size] at hi
      rcases lt_trichotomy i (size l) with hlt | heq | hgt
      · have hpl : ∀ p, some (Parent.mk true id name h r) = some p → depth p.other + 2 ≤ f := by
          intro p hp'; cases hp'; simp only; omega
        obtain ⟨root1, c1, e1, hc1, -, hd⟩ :=
          removeInorder_hit l f (some ⟨true, id, name, h, r⟩) i (by omega) hpl hlt
        obtain ⟨root1', c1', e1', r1, hs, hw⟩ :=
          ihl f (some ⟨true, id, name, h, r⟩) i (by omega) hpl hlt
        rw [e1] at e1'
        cases e1'
        have hs2 : shape root1 = shape (.node r1 id name h r) := hs
        cases root1 with
        | null => simp [shape] at hs2
        | node sl sid sname sh sr =>
          simp only [plug, Parent.plug, if_true, depth] at hd
          have e3 := removeInorder_walk sr f (some ⟨false, sid, sname, sh, sl⟩) (c1 - 1)
            (by omega) (by omega)
          refine ⟨plug parent (.node sl sid sname sh sr), c1 - 1 - (size sr : Int), ?_,
            .node sl sid sname sh sr, rfl, ?_⟩
          · simp only [_removeInorder, e1, if_neg (ne_of_lt hc1), e3]
            simp [plug, Parent.plug]
          · intro hb
            rw [balanced_node] at hb
            obtain ⟨⟨hb1, hb2⟩, bl, br⟩ := hb
            obtain ⟨w1, hh⟩ := hw bl
            refine ⟨within2_of_shape_eq hs2 ?_, ?_⟩
            · rw [within2_node]
              exact ⟨⟨by omega, by omega⟩, w1, within2_of_balanced _ br⟩
            · rw [getHeight_of_shape_eq hs2]
              simp only [getHeight_node]
              omega
      · subst heq
        have e1 : _removeInorder f l (some ⟨true, id, name, h, r⟩) (size l : Int)
            = .done (.node l id name h r, 0, false) := by
          rw [removeInorder_walk l f (some ⟨true, id, name, h, r⟩) (size l : Int)
            (by omega) (Or.inr le_rfl)]
          simp [plug, Parent.plug]
        obtain ⟨c, c1, e2, e3, hc⟩ := deleteNode_spec l id name h r parent
        rcases hc with ⟨rfl, rfl, rfl, rfl⟩ | ⟨rfl, rfl, p, t1, rfl, rfl, e4⟩ |
          ⟨-, t1, rfl, hne, -, hd⟩
        · refine ⟨.null, 0 - 1, ?_, .null, rfl,
            fun _ => ⟨trivial, Or.inr (by simp [_getHeight])⟩⟩
          simp only [_removeInorder, e1, eq_self_iff_true, if_true, e2, e3]
          simp
        · obtain ⟨pl, pid, pname, ph, pr, e5⟩ :=
            updateHeight_isSome (plug_some_ne_null p .null)
          simp only [plug] at e5
          rw [e5] at e4
          cases e4
          have hpr := depth_plug_null_right p e5
          have hpo := hp p rfl
          have e6 := removeInorder_walk pr f (some ⟨false, pid, pname, ph, pl⟩)
            (0 - 1) (by omega) (Or.inl (by omega))
          refine ⟨.node pl pid pname ph pr, 0 - 1 - (size pr : Int), ?_, .null,
            shape_updateHeight e5, fun _ => ⟨trivial, Or.inr (by simp [_getHeight])⟩⟩
          simp only [_removeInorder, e1, eq_self_iff_true, if_true, e2, e3, e6]
          simp [plug, Parent.plug]
        · cases t1 with
          | null => exact absurd rfl hne
          | node sl sid sname sh sr =>
            simp only [depth] at hd
            have e6 := removeInorder_walk sr f (some ⟨false, sid, sname, sh, sl⟩)
              (0 - 1) (by omega) (Or.inl (by omega))
            refine ⟨plug parent (.node sl sid sname sh sr), 0 - 1 - (size sr : Int),
              ?_, .node sl sid sname sh sr, rfl, ?_⟩
            · simp only [_removeInorder, e1, eq_self_iff_true, if_true, e2, e3, e6]
              simp [plug, Parent.plug]
            · intro hb
              cases c with
              | null => simp [Cursor.updateHeight] at e3
              | parent t0 =>
                simp only [Cursor.updateHeight] at e3
                split at e3 <;> simp at e3
              | self t0 =>
                obtain ⟨w0, hh⟩ := deleteNode_within l id name h r parent t0 hb e2
                simp only [Cursor.updateHeight] at e3
                split at e3
                · rename_i t2 e7
                  simp only [Option.some.injEq, Cursor.self.injEq] at e3
                  subst e3
                  have hs := shape_updateHeight e7
                  exact ⟨within2_of_shape_eq hs w0,
                    by rw [getHeight_of_shape_eq hs]; exact hh⟩
                · cases e3
      · have e1 : _removeInorder f l (some ⟨true, id, name, h, r⟩) (i : Int)
            = .done (.node l id name h r, (i : Int) - (size l : Int), false) := by
          rw [removeInorder_walk l f (some ⟨true, id, name, h, r⟩) (i : Int)
            (by omega) (Or.inr (by omega))]
          simp [plug, Parent.plug]
        have hne : (i : Int) - (size l : Int) ≠ 0 := by omega
        have hj : (i : Int) - (size l : Int) - 1 = ((i - size l - 1 : Nat) : Int) := by omega
        obtain ⟨t1, c1, e2, r1, hs, hw⟩ :=
          ihr f (some ⟨false, id, name, h, l⟩) (i - size l - 1) (by omega)
            (by intro p hp'; cases hp'; simp only; omega) (by omega)
        have hs2 : shape t1 = shape (.node l id name h r1) := hs
        refine ⟨plug parent t1, c1, ?_, t1, rfl, ?_⟩
        · simp only [_removeInorder, e1, if_neg hne, hj, e2]
          simp
        · intro hb
          rw [balanced_node] at hb
          obtain ⟨⟨hb1, hb2⟩, bl, br⟩ := hb
          obtain ⟨w1, hh⟩ := hw br
          refine ⟨within2_of_shape_eq hs2 ?_, ?_⟩
          · rw [within2_node]
            exact ⟨⟨by omega, by omega⟩, within2_of_balanced _ bl, w1⟩
          · rw [getHeight_of_shape_eq hs2]
            simp only [getHeight_node]
            omega

/-- Result of `remove` on any non-empty tree. -/
theorem remove_top_general (t : Tree) (k : Int) (ht : t ≠ .null) :
    ∃ t1 b, remove t k = some (t1, b) ∧ (b = false → t1 = t) ∧ (Balanced t → Within2 t1) := by
  cases t with
  | null => exact absurd rfl ht
  | node l id name h r =>
    obtain ⟨t1, b, e1, hf, r1, hs, hw⟩ := remove_general (.node l id name h r) none k
    simp only [remove, e1]
    by_cases hc : (decide (l = .null) && decide (r = .null) && b) = true
    · refine ⟨.null, b, by simp [hc], ?_, fun _ => trivial⟩
      intro hb
      simp [hb] at hc
    · refine ⟨t1, b, by simp [hc], hf, fun hb => ?_⟩
      exact within2_of_shape_eq hs (hw hb).1

/-- Result of `removeInorder` on any non-empty tree and any counter. -/
theorem removeInorder_top_general (t : Tree) (fuel : Nat) (c : Int) (ht : t ≠ .null)
    (hf : depth t + 2 ≤ fuel) :
    ∃ t1 b, removeInorder fuel t c = .done (t1, b) ∧ (b = false → t1 = t) ∧
      (Balanced t → Within2 t1) := by
  cases t with
  | null => exact absurd rfl ht
  | node l id name h r =>
    by_cases hc : c < 0 ∨ (size (.node l id name h r) : Int) ≤ c
    · refine ⟨.node l id name h r, false, ?_, fun _ => rfl, within2_of_balanced _⟩
      simp only [removeInorder, removeInorder_walk _ fuel none c (by omega) hc, plug]
      simp
    · have h0 : 0 ≤ c := by omega
      obtain ⟨i, rfl⟩ := Int.eq_ofNat_of_zero_le h0
      have hi : i < size (.node l id name h r) := by omega
      obtain ⟨t1, c1, e1, r1, hs, hw⟩ :=
        removeInorder_hit_shape (.node l id name h r) fuel none i hf (by simp) hi
      simp only [removeInorder, e1]
      by_cases hleaf : (decide (l = .null) && decide (r = .null)) = true
      · exact ⟨.null, true, by simp [hleaf], by simp, fun _ => trivial⟩
      · refine ⟨t1, true, by simp [hleaf], by simp, fun hb => ?_⟩
        exact within2_of_shape_eq hs (hw hb).1

/-- One removal on a non-empty tree with the balance property: `remove` and `removeInorder`
return, change nothing when they return `false`, and leave `height(left) − height(right)` within
`{-2, …, 2}` at every entry. -/
theorem removal_within_two (t : Tree) (k c : Int) (fuel : Nat)
    (hb : Balanced t) (ht : t ≠ .null) (hf : depth t + 2 ≤ fuel) :
    (∃ t1 b, remove t k = some (t1, b) ∧ (b = false → t1 = t) ∧ Within2 t1) ∧
    (∃ t1 b, removeInorder fuel t c = .done (t1, b) ∧ (b = false → t1 = t) ∧ Within2 t1) := by
  refine ⟨?_, ?_⟩
  · obtain ⟨t1, b, e1, h1, h2⟩ := remove_top_general t k ht
    exact ⟨t1, b, e1, h1, h2 hb⟩
  · obtain ⟨t1, b, e1, h1, h2⟩ := removeInorder_top_general t fuel c ht hf
    exact ⟨t1, b, e1, h1, h2 hb⟩

/-! ## Breadth-first loops -/

theorem pushChild_children (l : Tree) (id : Int) (name : String) (h : Int) (r : Tree)
    (rest : List Tree) (c : Int) :
    pushChild r (pushChild l (rest, c))
      = (rest ++ children (.node l id name h r),
          c + ((children (.node l id name h r)).length : Int)) := by
  simp only [pushChild, children]
  split_ifs <;> simp
  omega

theorem copyLevelorderLoop_nil (c e : Int) (names : String) :
    _copyLevelorderLoop [] c e names = some names := by
  rw [_copyLevelorderLoop]

theorem copyLevelorderLoop_cons (l : Tree) (id : Int) (name : String) (h : Int) (r : Tree)
    (rest : List Tree) (c e : Int) (names : String) :
    ∃ c1 e1, _copyLevelorderLoop (.node l id name h r :: rest) c e names
      = _copyLevelorderLoop (rest ++ children (.node l id name h r)) c1 e1
          (names ++ (name ++ ", ")) := by
  rw [_copyLevelorderLoop]
  simp only [pushChild_children l id name h r]
  split_ifs
  · exact ⟨_, _, rfl⟩
  · exact ⟨_, _, rfl⟩

theorem levelCountLoop_nil (c e lv : Int) : levelCountLoop [] c e lv = some lv := by
  rw [levelCountLoop]

theorem levelCountLoop_cons (l : Tree) (id : Int) (name : String) (h : Int) (r : Tree)
    (rest : List Tree) (c e lv : Int) :
    levelCountLoop (.node l id name h r :: rest) c e lv
      = if e - 1 = 0 then
          levelCountLoop (rest ++ children (.node l id name h r)) 0
            (c + ((children (.node l id name h r)).length : Int)) (lv + 1)
        else
          levelCountLoop (rest ++ children (.node l id name h r))
            (c + ((children (.node l id name h r)).length : Int)) (e - 1) lv := by
  rw [levelCountLoop]
  simp only [pushChild_children l id name h r]

theorem noNull_children (t : Tree) : NoNull (children t) := by
  cases t with
  | null => intro t ht; simp [children] at ht
  | node l id name h r =>
    intro t ht
    simp only [children, List.mem_append] at ht
    rcases ht with ht | ht <;> split_ifs at ht with hn <;> simp at ht <;> subst ht <;> exact hn

theorem noNull_kids (q : List Tree) : NoNull (kids q) := by
  intro t ht
  simp only [kids, List.mem_flatMap] at ht
  obtain ⟨s, -, hs⟩ := ht
  exact noNull_children s t hs

theorem noNull_append {q1 q2 : List Tree} (h1 : NoNull q1) (h2 : NoNull q2) :
    NoNull (q1 ++ q2) := by
  intro t ht
  rcases List.mem_append.1 ht with h | h
  · exact h1 t h
  · exact h2 t h

theorem joined_append (xs ys : List String) (names : String) :
    joined (xs ++ ys) names = joined ys (joined xs names) := by
  simp [joined]

theorem joined_nil (names : String) : joined [] names = names := rfl

theorem joined_cons (x : String) (xs : List String) (names : String) :
    joined (x :: xs) names = joined xs (names ++ (x ++ ", ")) := rfl

theorem forestLevel_nil (d : Nat) : forestLevel [] d = [] := rfl

theorem forestLevel_cons (t : Tree) (q : List Tree) (d : Nat) :
    forestLevel (t :: q) d = atDepth t d ++ forestLevel q d := by
  simp [forestLevel]

theorem forestLevel_append (q1 q2 : List Tree) (d : Nat) :
    forestLevel (q1 ++ q2) d = forestLevel q1 d ++ forestLevel q2 d := by
  simp [forestLevel]

theorem kids_cons (t : Tree) (q : List Tree) : kids (t :: q) = children t ++ kids q := by
  simp [kids]

theorem atDepth_succ (t : Tree) (d : Nat) :
    atDepth t (d + 1) = forestLevel (children t) d := by
  cases t with
  | null => rfl
  | node l id name h r =>
    simp only [atDepth, children, forestLevel_append]
    congr 1
    · split_ifs with hl
      · subst hl; simp [atDepth, forestLevel]
      · simp [forestLevel]
    · split_ifs with hr
      · subst hr; simp [atDepth, forestLevel]
      · simp [forestLevel]

theorem forestLevel_succ (q : List Tree) (d : Nat) :
    forestLevel q (d + 1) = forestLevel (kids q) d := by
  induction q with
  | nil => rfl
  | cons t q ih => rw [forestLevel_cons, kids_cons, forestLevel_append, ih, atDepth_succ]

theorem forestDepth_append (q1 q2 : List Tree) :
    forestDepth (q1 ++ q2) = max (forestDepth q1) (forestDepth q2) := by
  induction q1 with
  | nil => simp [forestDepth]
  | cons t q ih =>
    rw [List.cons_append, forestDepth, ih, forestDepth]
    omega

theorem depth_eq_children (l : Tree) (id : Int) (name : String) (h : Int) (r : Tree) :
    depth (.node l id name h r) = 1 + forestDepth (children (.node l id name h r)) := by
  simp only [depth, children, forestDepth_append]
  congr 2
  · split_ifs with hl
    · subst hl; simp [depth, forestDepth]
    · simp [forestDepth]
  · split_ifs with hr
    · subst hr; simp [depth, forestDepth]
    · simp [forestDepth]

theorem forestDepth_kids (q : List Tree) (hq : q ≠ []) (hn : NoNull q) :
    forestDepth q = 1 + forestDepth (kids q) := by
  induction q with
  | nil => exact absurd rfl hq
  | cons t q ih =>
    have ht : t ≠ .null := hn t (List.mem_cons_self _ _)
    cases t with
    | null => exact absurd rfl ht
    | node l id name h r =>
      rw [kids_cons, forestDepth_append, forestDepth, depth_eq_children]
      by_cases hq' : q = []
      · subst hq'; simp [kids, forestDepth]
      · rw [ih hq' (fun s hs => hn s (List.mem_cons_of_mem _ hs))]
        omega

theorem forestOrder_step (q : List Tree) (hq : q ≠ []) (hn : NoNull q) :
    forestOrder q = forestLevel q 0 ++ forestOrder (kids q) := by
  unfold forestOrder
  rw [forestDepth_kids q hq hn, Nat.add_comm, List.range_succ_eq_map]
  simp only [List.flatMap_cons, List.flatMap_map, forestLevel_succ]

/-- One pass of the loop of `_copyLevelorder` over the nodes `q1` at the front of the queue:
their labels are appended and their children are queued behind `cs`. -/
theorem copyLevelorderLoop_pass (q1 cs : List Tree) (c e : Int) (names : String)
    (hn : NoNull q1) :
    ∃ c1 e1, _copyLevelorderLoop (q1 ++ cs) c e names
      = _copyLevelorderLoop (cs ++ kids q1) c1 e1 (joined (forestLevel q1 0) names) := by
  induction q1 generalizing cs c e names with
  | nil => exact ⟨c, e, by simp [kids, forestLevel, joined]⟩
  | cons t q ih =>
    have ht : t ≠ .null := hn t (List.mem_cons_self _ _)
    cases t with
    | null => exact absurd rfl ht
    | node l id name h r =>
      obtain ⟨c1, e1, h1⟩ := copyLevelorderLoop_cons l id name h r (q ++ cs) c e names
      obtain ⟨c2, e2, h2⟩ := ih (cs ++ children (.node l id name h r)) c1 e1
        (names ++ (name ++ ", ")) (fun s hs => hn s (List.mem_cons_of_mem _ hs))
      refine ⟨c2, e2, ?_⟩
      rw [List.cons_append, h1, List.append_assoc, h2, kids_cons, List.append_assoc,
        forestLevel_cons]
      rfl

/-- The loop of `_copyLevelorder` appends the labels of the queued trees depth by depth. -/
theorem copyLevelorderLoop_spec (n : Nat) (q : List Tree) (c e : Int) (names : String)
    (hd : forestDepth q = n) (hn : NoNull q) :
    _copyLevelorderLoop q c e names = some (joined (forestOrder q) names) := by
  induction n generalizing q c e names with
  | zero =>
    cases q with
    | nil => rw [copyLevelorderLoop_nil]; rfl
    | cons t q =>
      have := forestDepth_kids (t :: q) (by simp) hn
      omega
  | succ n ih =>
    cases q with
    | nil => simp [forestDepth] at hd
    | cons t q =>
      have hk := forestDepth_kids (t :: q) (by simp) hn
      obtain ⟨c1, e1, h1⟩ := copyLevelorderLoop_pass (t :: q) [] c e names hn
      rw [List.append_nil, List.nil_append] at h1
      rw [h1, ih (kids (t :: q)) c1 e1 _ (by omega) (noNull_kids _),
        forestOrder_step (t :: q) (by simp) hn, joined_append]

/-- One pass of the loop of `levelCount` over the nodes `q1` of the current level, with the
`nodes_counted` children `cs` of the level already queued: the level counter goes up by one. -/
theorem levelCountLoop_pass (q1 cs : List Tree) (lv : Int) (hq : q1 ≠ []) (hn : NoNull q1) :
    levelCountLoop (q1 ++ cs) (cs.length : Int) (q1.length : Int) lv
      = levelCountLoop (cs ++ kids q1) 0 ((cs ++ kids q1).length : Int) (lv + 1) := by
  induction q1 generalizing cs with
  | nil => exact absurd rfl hq
  | cons t q ih =>
    have ht : t ≠ .null := hn t (List.mem_cons_self _ _)
    cases t with
    | null => exact absurd rfl ht
    | node l id name h r =>
      rw [List.cons_append, levelCountLoop_cons]
      by_cases hq' : q = []
      · subst hq'
        simp [kids]
      · have hlen : ((.node l id name h r :: q).length : Int) - 1 ≠ 0 := by
          have : 0 < q.length := List.length_pos.2 hq'
          simp only [List.length_cons, Nat.cast_add, Nat.cast_one]
          omega
        rw [if_neg hlen]
        have h2 := ih (cs ++ children (.node l id name h r)) hq'
          (fun s hs => hn s (List.mem_cons_of_mem _ hs))
        simp only [List.length_append, Nat.cast_add, List.length_cons, Nat.cast_one,
          List.append_assoc, kids_cons] at h2 ⊢
        rw [← h2]
        congr 1
        omega

/-- The loop of `levelCount` at the start of a level adds the depth of the queued trees. -/
theorem levelCountLoop_spec (n : Nat) (q : List Tree) (lv : Int)
    (hd : forestDepth q = n) (hn : NoNull q) :
    levelCountLoop q 0 (q.length : Int) lv = some (lv + (n : Int)) := by
  induction n generalizing q lv with
  | zero =>
    cases q with
    | nil => rw [levelCountLoop_nil]; simp
    | cons t q =>
      have := forestDepth_kids (t :: q) (by simp) hn
      omega
  | succ n ih =>
    cases q with
    | nil => simp [forestDepth] at hd
    | cons t q =>
      have hk := forestDepth_kids (t :: q) (by simp) hn
      have h1 := levelCountLoop_pass (t :: q) [] lv (by simp) hn
      simp only [List.append_nil, List.nil_append, List.length_nil, Nat.cast_zero] at h1
      rw [h1, ih (kids (t :: q)) (lv + 1) (by omega) (noNull_kids _)]
      congr 1
      push_cast
      omega

theorem depth_eq_getHeight (t : Tree) : (depth t : Int) = 1 + _getHeight t := by
  induction t with
  | null => rfl
  | node l id name h r ihl ihr =>
    simp only [depth, _getHeight]
    push_cast
    rw [ihl, ihr]
    omega

theorem levelCount_eq_depth (t : Tree) : levelCount t = some (depth t : Int) := by
  cases t with
  | null => rfl
  | node l id name h r =>
    have h1 := levelCountLoop_spec (depth (.node l id name h r)) [.node l id name h r] 0
      (by simp [forestDepth]) (by intro s hs; simp at hs; subst hs; simp)
    simp only [List.length_singleton, Nat.cast_one, zero_add] at h1
    exact h1

theorem forestOrder_singleton (t : Tree) : forestOrder [t] = levelorder t := by
  have h : forestLevel [t] = atDepth t := by
    funext d
    simp [forestLevel]
  simp [forestOrder, levelorder, forestDepth, h]

theorem copyLevelorder_spec (t : Tree) (names : String) :
    _copyLevelorder t names = some (joined (levelorder t) names) := by
  cases t with
  | null => simp [_copyLevelorder, levelorder, depth, joined]
  | node l id name h r =>
    rw [← forestOrder_singleton]
    exact copyLevelorderLoop_spec _ [.node l id name h r] 0 1 names rfl
      (by intro s hs; simp at hs; subst hs; simp)

/-! ## Traversal strings -/

theorem joined_data (xs : List String) (names : String) :
    (joined xs names).data = names.data ++ xs.flatMap (fun x => x.data ++ [',', ' ']) := by
  induction xs generalizing names with
  | nil => simp [joined]
  | cons x xs ih =>
    have : joined (x :: xs) names = joined xs (names ++ (x ++ ", ")) := rfl
    rw [this, ih]
    simp [String.data_append]

theorem intercalate_go_data (acc s : String) (xs : List String) :
    (String.intercalate.go acc s xs).data
      = acc.data ++ xs.flatMap (fun x => s.data ++ x.data) := by
  induction xs generalizing acc with
  | nil => simp [String.intercalate.go]
  | cons x xs ih =>
    rw [String.intercalate.go, ih]
    simp [String.data_append]

theorem flatMap_sep_shift (sep x : List Char) (xs : List (List Char)) :
    x ++ sep ++ xs.flatMap (fun y => y ++ sep) = (x ++ xs.flatMap (fun y => sep ++ y)) ++ sep := by
  induction xs generalizing x with
  | nil => simp
  | cons y ys ih =>
    simp only [List.flatMap_cons]
    have := ih y
    simp only [List.append_assoc] at this ⊢
    rw [this]

theorem pop_back_snoc (cs : List Char) (c : Char) : pop_back ⟨cs ++ [c]⟩ = some ⟨cs⟩ := by
  simp [pop_back]

/-- Two `pop_back` calls after the loop leave the labels joined by `", "`. -/
theorem pop_back_joined (xs : List String) (hx : xs ≠ []) :
    (match pop_back (joined xs "") with
      | none => none
      | some s => pop_back s) = some (String.intercalate ", " xs) := by
  cases xs with
  | nil => exact absurd rfl hx
  | cons x xs =>
    have hd : (joined (x :: xs) "").data
        = (String.intercalate ", " (x :: xs)).data ++ [','] ++ [' '] := by
      rw [joined_data, String.intercalate, intercalate_go_data]
      have h := flatMap_sep_shift [',', ' '] x.data (xs.map String.data)
      simp only [List.flatMap_map] at h
      show ("" : String).data ++ _ = _
      simp only [List.flatMap_cons]
      rw [List.nil_append, h]
      simp
    have e1 : joined (x :: xs) "" = ⟨(String.intercalate ", " (x :: xs)).data ++ [','] ++ [' ']⟩ :=
      String.ext hd
    rw [e1, pop_back_snoc]
    simp only
    rw [pop_back_snoc]

theorem copyInorder_eq (t : Tree) (names : String) :
    _copyInorder t names = joined ((inorder t).map Prod.snd) names := by
  induction t generalizing names with
  | null => rfl
  | node l id name h r ihl ihr =>
    simp only [_copyInorder, ihl, ihr, inorder_node, List.map_append, List.map_cons,
      joined_append]
    rfl

/-- The in-order traversal string is the list of labels in in-order, joined by `", "`. -/
theorem traversal_inorder (t : Tree) :
    traversalToString t .INORDER = some (String.intercalate ", " ((inorder t).map Prod.snd)) := by
  cases t with
  | null => rfl
  | node l id name h r =>
    simp only [traversalToString, if_neg (show Tree.node l id name h r ≠ .null by simp),
      copyInorder_eq]
    exact pop_back_joined _ (by simp)

/-! ## Sequences of calls -/

theorem inorder_eq_nil {t : Tree} (h : inorder t = []) : t = .null := by
  cases t with
  | null => rfl
  | node l id name ht r => simp at h

theorem depth_le_size (t : Tree) : depth t ≤ size t := by
  induction t with
  | null => exact le_rfl
  | node l id name h r ihl ihr => simp only [depth, size]; omega

/-- Entries with pairwise distinct keys that a search tree does not hold are all inserted. -/
theorem insertAll_distinct (entries : List (Int × String)) (t : Tree) (hb : BST t)
    (hn : (entries.map Prod.fst).Nodup) (hk : ∀ e ∈ entries, e.1 ∉ keys t) :
    ∃ t1, insertAll t entries = some t1 ∧ BST t1 ∧ (inorder t1).Perm (inorder t ++ entries) := by
  induction entries generalizing t with
  | nil => exact ⟨t, rfl, hb, by simp⟩
  | cons e rest ih =>
    obtain ⟨k, v⟩ := e
    rw [List.map_cons, List.nodup_cons] at hn
    obtain ⟨hk1, hn1⟩ := hn
    obtain ⟨t1, e1, b1, pre, post, e2, e3, -, -⟩ :=
      insert_absent t k v hb (hk (k, v) (List.mem_cons_self _ _))
    have hk2 : ∀ e ∈ rest, e.1 ∉ keys t1 := by
      intro e he hmem
      have : e.1 ∈ pre.map Prod.fst ++ k :: post.map Prod.fst := by
        simpa [keys, e3] using hmem
      rcases List.mem_append.1 this with h | h
      · exact hk e (List.mem_cons_of_mem _ he) (by simp [keys, e2]; simp at h; tauto)
      · rcases List.mem_cons.1 h with h | h
        · exact hk1 (List.mem_map.2 ⟨e, he, h⟩)
        · exact hk e (List.mem_cons_of_mem _ he) (by simp [keys, e2]; simp at h; tauto)
    obtain ⟨t2, e4, b2, hp⟩ := ih t1 b1 hn1 hk2
    refine ⟨t2, by simp only [insertAll, e1, e4], b2, hp.trans ?_⟩
    rw [e3, e2]
    simp only [List.append_assoc, List.cons_append]
    exact List.Perm.append_left pre List.perm_middle.symm

/-- From the empty tree: the result is a search tree that holds exactly the entries. -/
theorem insertAll_from_empty (entries : List (Int × String))
    (hn : (entries.map Prod.fst).Nodup) :
    ∃ t, insertAll .null entries = some t ∧ BST t ∧ (inorder t).Perm entries := by
  obtain ⟨t, e1, b1, hp⟩ := insertAll_distinct entries .null trivial hn (by simp [keys])
  exact ⟨t, e1, b1, by simpa using hp⟩

/-- A list of entries with distinct keys has one arrangement in ascending key order. -/
theorem inorder_eq_sort (t : Tree) (entries : List (Int × String)) (hb : BST t)
    (hp : (inorder t).Perm entries) :
    inorder t = entries.insertionSort (fun a b => a.1 ≤ b.1) := by
  have hs1 : (inorder t).Pairwise (fun a b => a.1 < b.1) := by
    have := (bst_iff_sorted t).1 hb
    rwa [keys, List.pairwise_map] at this
  have hperm : (inorder t).Perm (entries.insertionSort (fun a b => a.1 ≤ b.1)) :=
    hp.trans (List.perm_insertionSort _ entries).symm
  have hnd : (entries.insertionSort (fun a b => a.1 ≤ b.1)).Pairwise (fun a b => a.1 ≠ b.1) := by
    have h1 : ((inorder t).map Prod.fst).Nodup := by
      have := (bst_iff_sorted t).1 hb
      exact this.imp (fun h => ne_of_lt h)
    have h2 : ((entries.insertionSort (fun a b => a.1 ≤ b.1)).map Prod.fst).Nodup :=
      (hperm.map Prod.fst).nodup_iff.1 h1
    rwa [List.Nodup, List.pairwise_map] at h2
  have hs2 : (entries.insertionSort (fun a b => a.1 ≤ b.1)).Pairwise (fun a b => a.1 < b.1) := by
    haveI : IsTotal (Int × String) (fun a b => a.1 ≤ b.1) := ⟨fun a b => le_total a.1 b.1⟩
    haveI : IsTrans (Int × String) (fun a b => a.1 ≤ b.1) :=
      ⟨fun a b c h1 h2 => le_trans h1 h2⟩
    have hle := List.sorted_insertionSort (fun a b : Int × String => a.1 ≤ b.1) entries
    exact (List.Pairwise.and hle hnd).imp (fun h => lt_of_le_of_ne h.1 h.2)
  haveI : IsAntisymm (Int × String) (fun a b => a.1 < b.1) :=
    ⟨fun a b h1 h2 => absurd (lt_trans h1 h2) (lt_irrefl _)⟩
  exact List.eq_of_perm_of_sorted hperm hs1 hs2

/-- Removing the keys of a search tree one by one, in any order, empties it. -/
theorem removeAll_keys (order : List Int) (t : Tree) (hb : BST t)
    (hp : (keys t).Perm order) :
    removeAll t order = some (.null, List.replicate order.length true) := by
  induction order generalizing t with
  | nil =>
    have : inorder t = [] := by
      have := hp.eq_nil
      simpa [keys] using this
    rw [inorder_eq_nil this]
    rfl
  | cons k rest ih =>
    have hk : k ∈ keys t := hp.symm.subset (List.mem_cons_self _ _)
    obtain ⟨t1, e1, b1, -, pre, v, post, e2, e3⟩ := remove_spec t k hb hk
    have hp1 : (keys t1).Perm rest := by
      have h1 : keys t = pre.map Prod.fst ++ k :: post.map Prod.fst := by simp [keys, e2]
      have h2 : keys t1 = pre.map Prod.fst ++ post.map Prod.fst := by simp [keys, e3]
      rw [h1] at hp
      rw [h2]
      exact (List.perm_middle.symm.trans hp).cons_inv
    simp only [removeAll, e1, ih t1 b1 hp1, List.length_cons, List.replicate_succ]

/-- Calling `removeInorder` with ranks below the current number of entries, once per entry,
empties the tree. -/
theorem removeInorderAll_ranks (ranks : List Nat) (t : Tree) (fuel : Nat)
    (hl : ranks.length = size t) (hr : RanksBelow (size t) ranks) (hf : size t + 2 ≤ fuel) :
    removeInorderAll fuel t (ranks.map Int.ofNat)
      = .done (.null, List.replicate ranks.length true) := by
  induction ranks generalizing t with
  | nil =>
    have : inorder t = [] := List.eq_nil_of_length_eq_zero (by rw [length_inorder]; exact hl.symm)
    rw [inorder_eq_nil this]
    rfl
  | cons r rest ih =>
    obtain ⟨hr1, hr2⟩ := hr
    have hd := depth_le_size t
    obtain ⟨t1, e1, e2⟩ := removeInorder_spec t fuel r hr1 (by omega)
    have hs : size t1 = size t - 1 := by
      rw [← length_inorder t1, e2, List.length_eraseIdx_of_lt (by rw [length_inorder]; exact hr1),
        length_inorder]
    simp only [List.length_cons] at hl
    have h3 := ih t1 (by omega) (by rw [hs]; exact hr2) (by omega)
    simp only [List.map_cons, removeInorderAll]
    have e1' : removeInorder fuel t (Int.ofNat r) = .done (t1, true) := e1
    rw [e1']
    simp only [h3, List.length_cons, List.replicate_succ]

theorem labels_perm_children (t : Tree) :
    ((inorder t).map Prod.snd).Perm
      (atDepth t 0 ++ (children t).flatMap (fun s => (inorder s).map Prod.snd)) := by
  cases t with
  | null => simp [atDepth, children]
  | node l id name h r =>
    have hl : (if l = .null then [] else [l]).flatMap (fun s => (inorder s).map Prod.snd)
        = (inorder l).map Prod.snd := by
      split_ifs with h0
      · subst h0; simp
      · simp
    have hr : (if r = .null then [] else [r]).flatMap (fun s => (inorder s).map Prod.snd)
        = (inorder r).map Prod.snd := by
      split_ifs with h0
      · subst h0; simp
      · simp
    simp only [atDepth, children, List.flatMap_append, hl, hr, inorder_node, List.map_append,
      List.map_cons, List.singleton_append]
    exact List.perm_middle

/-- The breadth-first order of a queue of trees lists the labels of their entries once each. -/
theorem forestOrder_perm (n : Nat) (q : List Tree) (hd : forestDepth q = n) (hn : NoNull q) :
    (forestOrder q).Perm (q.flatMap (fun s => (inorder s).map Prod.snd)) := by
  induction n generalizing q with
  | zero =>
    cases q with
    | nil => simp [forestOrder, forestDepth]
    | cons t q =>
      have := forestDepth_kids (t :: q) (by simp) hn
      omega
  | succ n ih =>
    cases q with
    | nil => simp [forestDepth] at hd
    | cons t q =>
      have hk := forestDepth_kids (t :: q) (by simp) hn
      rw [forestOrder_step (t :: q) (by simp) hn]
      have h1 := ih (kids (t :: q)) (by omega) (noNull_kids _)
      have h2 : ((t :: q).flatMap (fun s => (inorder s).map Prod.snd)).Perm
          ((t :: q).flatMap (fun s => atDepth s 0 ++
            (children s).flatMap (fun u => (inorder u).map Prod.snd))) :=
        List.Perm.flatMap_left _ (fun s _ => labels_perm_children s)
      have h3 := List.flatMap_append_perm (t :: q) (fun s => atDepth s 0)
        (fun s => (children s).flatMap (fun u => (inorder u).map Prod.snd))
      have h4 : (t :: q).flatMap (fun s => (children s).flatMap
          (fun u => (inorder u).map Prod.snd))
          = (kids (t :: q)).flatMap (fun u => (inorder u).map Prod.snd) := by
        rw [kids, List.flatMap_assoc]
      rw [h4] at h3
      exact (List.Perm.append_left _ h1).trans (h3.trans h2.symm)

theorem levelorder_perm (t : Tree) : (levelorder t).Perm ((inorder t).map Prod.snd) := by
  cases t with
  | null => simp [levelorder, depth]
  | node l id name h r =>
    have := forestOrder_perm _ [.node l id name h r] rfl
      (by intro s hs; simp at hs; subst hs; simp)
    rw [forestOrder_singleton] at this
    simpa using this

theorem levelorder_ne_nil (l : Tree) (id : Int) (name : String) (h : Int) (r : Tree) :
    levelorder (.node l id name h r) ≠ [] := by
  rw [← forestOrder_singleton, forestOrder_step _ (by simp)
    (by intro s hs; simp at hs; subst hs; simp)]
  simp [forestLevel, atDepth]

/-- The level-order traversal string is the list of labels in breadth-first order, joined by
`", "`. -/
theorem traversal_levelorder (t : Tree) :
    traversalToString t .LEVELORDER = some (String.intercalate ", " (levelorder t)) := by
  cases t with
  | null => rfl
  | node l id name h r =>
    simp only [traversalToString, if_neg (show Tree.node l id name h r ≠ .null by simp),
      copyLevelorder_spec]
    exact pop_back_joined _ (levelorder_ne_nil l id name h r)

/-! ## Decimal strings of keys -/

theorem toDigitsCore_fuel (f1 f2 n : Nat) (ds : List Char) (h1 : n < f1) (h2 : n < f2) :
    Nat.toDigitsCore 10 f1 n ds = Nat.toDigitsCore 10 f2 n ds := by
  induction f1 generalizing f2 n ds with
  | zero => omega
  | succ f1 ih =>
    cases f2 with
    | zero => omega
    | succ f2 =>
      simp only [Nat.toDigitsCore]
      split_ifs with h0
      · rfl
      · exact ih f2 (n / 10) _ (by omega) (by omega)

theorem toDigitsCore_append (f n : Nat) (ds : List Char) :
    Nat.toDigitsCore 10 f n ds = Nat.toDigitsCore 10 f n [] ++ ds := by
  induction f generalizing n ds with
  | zero => simp [Nat.toDigitsCore]
  | succ f ih =>
    simp only [Nat.toDigitsCore]
    split_ifs with h0
    · rfl
    · rw [ih (n / 10) (Nat.digitChar (n % 10) :: ds), ih (n / 10) [Nat.digitChar (n % 10)]]
      simp

theorem toDigits_small (n : Nat) (h : n < 10) : Nat.toDigits 10 n = [Nat.digitChar n] := by
  simp only [Nat.toDigits, Nat.toDigitsCore]
  rw [if_pos (by omega), Nat.mod_eq_of_lt h]

theorem toDigits_step (n : Nat) (h : 10 ≤ n) :
    Nat.toDigits 10 n = Nat.toDigits 10 (n / 10) ++ [Nat.digitChar (n % 10)] := by
  show Nat.toDigitsCore 10 (n + 1) n []
    = Nat.toDigitsCore 10 (n / 10 + 1) (n / 10) [] ++ [Nat.digitChar (n % 10)]
  rw [Nat.toDigitsCore, if_neg (by omega), toDigitsCore_append,
    toDigitsCore_fuel n (n / 10 + 1) (n / 10) [] (by omega) (by omega)]

theorem digitChar_isDigit (m : Nat) (h : m < 10) : (Nat.digitChar m).isDigit = true := by
  interval_cases m <;> rfl

theorem digitChar_value (m : Nat) (h : m < 10) :
    (Nat.digitChar m).toNat - '0'.toNat = m := by
  interval_cases m <;> rfl

theorem decValue_snoc (cs : List Char) (c : Char) :
    decValue (cs ++ [c]) = decValue cs * 10 + (c.toNat - '0'.toNat) := by
  simp [decValue]

/-- The decimal digits of a number are digits and have the number as their value. -/
theorem toDigits_spec (n : Nat) :
    (∀ c ∈ Nat.toDigits 10 n, c.isDigit = true) ∧ decValue (Nat.toDigits 10 n) = n ∧
      Nat.toDigits 10 n ≠ [] := by
  induction n using Nat.strong_induction_on with
  | _ n ih =>
    by_cases h : n < 10
    · rw [toDigits_small n h]
      refine ⟨?_, ?_, by simp⟩
      · intro c hc
        simp only [List.mem_singleton] at hc
        subst hc
        exact digitChar_isDigit n h
      · have := digitChar_value n h
        simpa [decValue] using this
    · rw [toDigits_step n (by omega)]
      obtain ⟨h1, h2, -⟩ := ih (n / 10) (by omega)
      refine ⟨?_, ?_, by simp⟩
      · intro c hc
        rcases List.mem_append.1 hc with hc | hc
        · exact h1 c hc
        · simp only [List.mem_singleton] at hc
          subst hc
          exact digitChar_isDigit _ (Nat.mod_lt _ (by decide))
      · rw [decValue_snoc, h2, digitChar_value _ (Nat.mod_lt _ (by decide))]
        omega

theorem decValue_zeros (k : Nat) (cs : List Char) :
    decValue (List.replicate k '0' ++ cs) = decValue cs := by
  induction k with
  | zero => rfl
  | succ k ih =>
    have : decValue ('0' :: (List.replicate k '0' ++ cs))
        = decValue (List.replicate k '0' ++ cs) := by
      simp [decValue]
    rw [List.replicate_succ, List.cons_append, this, ih]

theorem toNat?_of_digits (cs : List Char) (hne : cs ≠ []) (hd : ∀ c ∈ cs, c.isDigit = true) :
    (String.mk cs).toNat? = some (decValue cs) := by
  have h1 : (String.mk cs).isNat = true := by
    simp only [String.isNat, Bool.and_eq_true, Bool.not_eq_true', String.all_eq,
      List.all_eq_true]
    refine ⟨?_, hd⟩
    rw [Bool.eq_false_iff]
    intro h
    rw [String.isEmpty_iff] at h
    exact hne (congrArg String.data h)
  rw [String.toNat?, if_pos h1, String.foldl_eq]
  rfl

/-- For a key within `0 .. 99999999`, `_idToString` is 8 decimal digits that read back as the
key. -/
theorem idToString_spec (k : Int) (h0 : 0 ≤ k) (h1 : k ≤ 99999999) :
    (_idToString k).length = 8 ∧ (_idToString k).toNat? = some k.toNat := by
  obtain ⟨n, rfl⟩ := Int.eq_ofNat_of_zero_le h0
  have hn : n < 10 ^ 8 := by omega
  have hlen : (Nat.toDigits 10 n).length ≤ 8 := Nat.repr_length n 8 (by decide) hn
  obtain ⟨hd, hv, hne⟩ := toDigits_spec n
  have hpos : 0 < (Nat.toDigits 10 n).length := List.length_pos.2 hne
  have e : _idToString (n : Int)
      = String.mk (List.replicate (8 - (Nat.toDigits 10 n).length) '0' ++ Nat.toDigits 10 n) := by
    have hs : toString (n : Int) = String.mk (Nat.toDigits 10 n) := rfl
    have hl : (String.mk (Nat.toDigits 10 n)).length = (Nat.toDigits 10 n).length := rfl
    simp only [_idToString, hs, hl]
    have hm : (8 + 2 ^ 64 - (Nat.toDigits 10 n).length) % 2 ^ 64
        = 8 - (Nat.toDigits 10 n).length := by omega
    rw [hm]
    rfl
  rw [e]
  refine ⟨?_, ?_⟩
  · show (List.replicate _ '0' ++ Nat.toDigits 10 n).length = 8
    simp only [List.length_append, List.length_replicate]
    omega
  · rw [toNat?_of_digits _ (by simp [hne]), decValue_zeros, hv]
    · rfl
    · intro c hc
      rcases List.mem_append.1 hc with hc | hc
      · rw [(List.mem_replicate.1 hc).2]; rfl
      · exact hd c hc

theorem searchName_eq (t : Tree) (s : String) (found : List String) :
    _searchName t s found = found
      ++ ((preorder t).filter (fun e => decide (e.2 = s))).map (fun e => _idToString e.1) := by
  induction t generalizing found with
  | null => simp [_searchName, preorder]
  | node l id name h r ihl ihr =>
    simp only [_searchName, ihl, ihr, preorder, List.filter_cons, List.filter_append,
      List.map_append]
    by_cases hs : s = name
    · subst hs; simp
    · have : ¬ name = s := fun h => hs h.symm
      simp [hs, this]

theorem mem_preorder_iff (t : Tree) (e : Int × String) : e ∈ preorder t ↔ e ∈ inorder t := by
  induction t with
  | null => simp [preorder]
  | node l id name h r ihl ihr =>
    simp only [preorder, inorder_node, List.mem_cons, List.mem_append, ihl, ihr]
    tauto

/-! ## Size and depth after insertions -/

theorem size_updateBalance {t t1 : Tree} (h : _updateBalance t = some t1) :
    size t1 = size t := by
  rw [← length_inorder, ← length_inorder, inorder_updateBalance h]

theorem size_insert (t : Tree) (k : Int) (v : String) {t1 : Tree}
    (h : _insert t k v = some t1) : size t1 = size t + 1 := by
  induction t generalizing t1 with
  | null =>
    simp only [_insert, Option.some.injEq] at h
    subst h
    rfl
  | node l id name ht r ihl ihr =>
    simp only [_insert] at h
    split_ifs at h with hk
    · obtain ⟨l1, e1, -⟩ := insert_isSome l k v
      rw [e1] at h
      rw [size_updateBalance h]
      simp only [size, ihl e1]
      omega
    · obtain ⟨r1, e1, -⟩ := insert_isSome r k v
      rw [e1] at h
      rw [size_updateBalance h]
      simp only [size, ihr e1]
      omega

/-- One `insert` call on a balanced tree: the tree stays balanced and gains one entry exactly
when the call returns `true`. -/
theorem insert_step_log (t : Tree) (k : Int) (v : String) (ht : Balanced t) :
    ∃ t1 b, insert t k v = some (t1, b) ∧ Balanced t1 ∧
      size t1 = size t + (if b = true then 1 else 0) := by
  unfold insert
  split_ifs with hs
  · exact ⟨t, false, rfl, ht, by simp⟩
  · obtain ⟨t1, e1, b1, -⟩ := insert_balanced t k v ht
    obtain ⟨t2, e2, hne⟩ := insert_isSome t k v
    rw [e1] at e2
    cases e2
    rw [e1]
    exact ⟨t1, true, by simp [hne], b1, by simp [size_insert t k v e1]⟩

theorem insertAllLog_spec (ops : List (Int × String)) (t : Tree) (ht : Balanced t) :
    ∃ t1 bs, insertAllLog t ops = some (t1, bs) ∧ Balanced t1 ∧
      size t1 = size t + bs.count true := by
  induction ops generalizing t with
  | nil => exact ⟨t, [], rfl, ht, by simp⟩
  | cons op rest ih =>
    obtain ⟨k, v⟩ := op
    obtain ⟨t1, b, e1, b1, hs1⟩ := insert_step_log t k v ht
    obtain ⟨t2, bs, e2, b2, hs2⟩ := ih t1 b1
    refine ⟨t2, b :: bs, by simp only [insertAllLog, e1, e2], b2, ?_⟩
    rw [hs2, hs1]
    cases b <;> simp
    omega

/-- A balanced tree with `depth` levels holds at least `fib (depth + 2) - 1` entries. -/
theorem fib_le_size (t : Tree) (ht : Balanced t) : Nat.fib (depth t + 2) ≤ size t + 1 := by
  induction t with
  | null => simp [depth, size]
  | node l id name h r ihl ihr =>
    rw [balanced_node] at ht
    obtain ⟨⟨h1, h2⟩, bl, br⟩ := ht
    have hl := ihl bl
    have hr := ihr br
    have dl := depth_eq_getHeight l
    have dr := depth_eq_getHeight r
    simp only [depth, size]
    rcases le_total (depth l) (depth r) with hle | hle
    · rw [max_eq_right hle]
      have e : 1 + depth r + 2 = (depth r + 1) + 2 := by omega
      rw [e, Nat.fib_add_two]
      have hm : Nat.fib (depth r + 1) ≤ Nat.fib (depth l + 2) := Nat.fib_mono (by omega)
      have e2 : depth r + 1 + 1 = depth r + 2 := by omega
      rw [e2]
      omega
    · rw [max_eq_left hle]
      have e : 1 + depth l + 2 = (depth l + 1) + 2 := by omega
      rw [e, Nat.fib_add_two]
      have hm : Nat.fib (depth l + 1) ≤ Nat.fib (depth r + 2) := Nat.fib_mono (by omega)
      have e2 : depth l + 1 + 1 = depth l + 2 := by omega
      rw [e2]
      omega

/-! ## Validation of ranks -/

theorem validateCountLoop_iff (cs : List Char) :
    validateCountLoop cs = true ↔ ∀ c ∈ cs, c.isDigit = true := by
  induction cs with
  | nil => simp [validateCountLoop]
  | cons c rest ih =>
    simp only [validateCountLoop, List.mem_cons, forall_eq_or_imp, ← ih]
    have hd : c.isDigit = true ↔ ¬ (c.toNat < 48 ∨ c.toNat > 57) := by
      simp only [Char.isDigit, Bool.and_eq_true, decide_eq_true_eq, Char.toNat]
      constructor
      · rintro ⟨h1, h2⟩
        have h1' : (48 : Nat) ≤ c.val.toNat := h1
        have h2' : c.val.toNat ≤ 57 := h2
        omega
      · intro h
        exact ⟨show (48 : Nat) ≤ c.val.toNat by omega, show c.val.toNat ≤ 57 by omega⟩
    by_cases h : c.toNat < 48 ∨ c.toNat > 57
    · have : (decide (c.toNat < 48) || decide (c.toNat > 57)) = true := by simpa using h
      simp [this, hd, h]
    · have : (decide (c.toNat < 48) || decide (c.toNat > 57)) = false := by
        simpa using h
      simp only [this, hd]
      simp [h]

/-- What `validateCount` does accept: the strings all of whose characters are decimal digits,
the empty string among them. -/
theorem validateCount_iff (s : String) :
    validateCount s = true ↔ ∀ c ∈ s.data, c.isDigit = true :=
  validateCountLoop_iff s.data

theorem dropWhile_isspace_digits (cs : List Char) (hd : ∀ c ∈ cs, c.isDigit = true) :
    cs.dropWhile isspace = cs := by
  cases cs with
  | nil => rfl
  | cons c rest =>
    have h := hd c (List.mem_cons_self _ _)
    have hs : isspace c = false := by
      simp only [Char.isDigit, Bool.and_eq_true, decide_eq_true_eq] at h
      have h1 : (48 : Nat) ≤ c.val.toNat := h.1
      simp only [isspace, Char.toNat, Bool.or_eq_false_iff, decide_eq_false_iff_not,
        Bool.and_eq_false_iff]
      exact ⟨by omega, Or.inr (by omega)⟩
    simp [List.dropWhile, hs]

/-- An accepted rank that is not empty and whose value fits an `int` is converted by `as_int`
to that value. -/
theorem as_int_of_accepted (s : String) (hv : validateCount s = true) (hne : s.data ≠ [])
    (hr : decValue s.data ≤ 2 ^ 31 - 1) : as_int s = some (decValue s.data : Int) := by
  rw [validateCount_iff] at hv
  have h1 := dropWhile_isspace_digits s.data hv
  have h2 : s.data.takeWhile Char.isDigit = s.data := List.takeWhile_eq_self_iff.2 hv
  cases hcs : s.data with
  | nil => exact absurd hcs hne
  | cons c rest =>
    have hc : c.isDigit = true := hv c (by rw [hcs]; exact List.mem_cons_self _ _)
    have hm : c ≠ '-' := by rintro rfl; exact absurd hc (by decide)
    have hp : c ≠ '+' := by rintro rfl; exact absurd hc (by decide)
    rw [hcs] at h1 h2 hr
    have hneg : decide ((c :: rest).head? = some '-') = false := by simp [hm]
    have hpos : (0 : Int) ≤ (decValue (c :: rest) : Int) := Int.natCast_nonneg _
    have hle : (decValue (c :: rest) : Int) ≤ 2 ^ 31 - 1 := by
      have : (decValue (c :: rest) : Int) ≤ ((2 ^ 31 - 1 : Nat) : Int) := by exact_mod_cast hr
      simpa using this
    have hmatch : dropSign (c :: rest) = c :: rest := by
      unfold dropSign
      split
      · rename_i heq; exact absurd (List.cons.inj heq).1 hm
      · rename_i heq; exact absurd (List.cons.inj heq).1 hp
      · rfl
    simp only [as_int, stoi, hcs, h1, hneg, hmatch, h2]
    simp only [Bool.false_eq_true, if_false]
    rw [if_neg (by simp), if_pos ⟨by omega, hle⟩]

/-- The function `insert` returns on every tree, whatever its shape. -/
theorem insert_total (t : Tree) (k : Int) (v : String) :
    ∃ t1 b, insert t k v = some (t1, b) := by
  unfold insert
  split_ifs with hs
  · exact ⟨t, false, rfl⟩
  · obtain ⟨t1, e1, -⟩ := insert_isSome t k v
    rw [e1]
    exact ⟨_, _, rfl⟩

/-- A right-heavy node has the right child that `_rotateLeft` pivots on, and when that child
leans left it has the left child that `_rotateRightLeft` pivots on. -/
theorem right_pivots_exist (l : Tree) (id : Int) (name : String) (h : Int) (r : Tree)
    (hb : _getHeight l - _getHeight r < -1) :
    (∃ t1, _rotateLeft (.node l id name h r) = some t1) ∧
    (_getBalance r = some 1 → ∃ t1, _rotateRightLeft (.node l id name h r) = some t1) := by
  have hl := getHeight_ge l
  cases r with
  | null => simp only [getHeight_null] at hb; omega
  | node rl rid rname rh rr =>
    refine ⟨⟨_, rfl⟩, ?_⟩
    intro h1
    cases rl with
    | null =>
      have := getHeight_ge rr
      simp only [_getBalance, Option.some.injEq, getHeight_null] at h1
      omega
    | node a aid aname ah b => exact ⟨_, rfl⟩

/-- A left-heavy node has the left child that `_rotateRight` pivots on, and when that child
leans right it has the right child that `_rotateLeftRight` pivots on. -/
theorem left_pivots_exist (l : Tree) (id : Int) (name : String) (h : Int) (r : Tree)
    (hb : _getHeight l - _getHeight r > 1) :
    (∃ t1, _rotateRight (.node l id name h r) = some t1) ∧
    (_getBalance l = some (-1) → ∃ t1, _rotateLeftRight (.node l id name h r) = some t1) := by
  have hr := getHeight_ge r
  cases l with
  | null => simp only [getHeight_null] at hb; omega
  | node ll lid lname lh lr =>
    refine ⟨⟨_, rfl⟩, ?_⟩
    intro h1
    cases lr with
    | null =>
      have := getHeight_ge ll
      simp only [_getBalance, Option.some.injEq, getHeight_null] at h1
      omega
    | node a aid aname ah b => exact ⟨_, rfl⟩

/-! ## The claims -/

/-- C1: for a tree with the BST property, a key `k` that no entry holds and a label `v`,
`insert(k, v)` returns `true`, the new tree has the BST property, and its in-order sequence
of entries is the old one with `(k, v)` put in between the entries of smaller key and those of
larger key, all of which are kept as they were. -/
theorem insert_new_key (t : Tree) (k : Int) (v : String) (hb : BST t) (hk : k ∉ keys t) :
    ∃ t1, insert t k v = some (t1, true) ∧ BST t1 ∧
      ∃ pre post, inorder t = pre ++ post ∧ inorder t1 = pre ++ (k, v) :: post ∧
        (∀ e ∈ pre, e.1 < k) ∧ (∀ e ∈ post, k < e.1) :=
  insert_absent t k v hb hk

/-- The statement above at a two-entry tree where the insertion rotates the root. -/
theorem insert_new_key_witness :
    BST (.node (newNode 20 "B") 30 "A" 0 .null) ∧ (10 : Int) ∉ keys (.node (newNode 20 "B") 30 "A" 0 .null) ∧
    ∃ t1, insert (.node (newNode 20 "B") 30 "A" 0 .null) 10 "C" = some (t1, true) ∧ BST t1 ∧
      ∃ pre post, inorder (.node (newNode 20 "B") 30 "A" 0 .null) = pre ++ post ∧
        inorder t1 = pre ++ (10, "C") :: post ∧
        (∀ e ∈ pre, e.1 < 10) ∧ (∀ e ∈ post, 10 < e.1) :=
  ⟨by decide, by decide, insert_new_key _ 10 "C" (by decide) (by decide)⟩

/-- C2 (the code at the failing input): on the empty tree `insert(5, "")` succeeds, and the
second `insert(5, "x")` with the same key also returns `true` and stores key `5` twice. -/
theorem insert_twice_empty_label :
    insert .null 5 "" = some (newNode 5 "", true) ∧
    insert (newNode 5 "") 5 "x" = some (.node .null 5 "" 0 (newNode 5 "x"), true) ∧
    keys (.node .null 5 "" 0 (newNode 5 "x")) = [5, 5] := by
  decide

/-- C3: after any finite sequence of `insert` calls on the empty tree, all calls return and
every entry of the tree satisfies `|height(left) − height(right)| ≤ 1` for the structural
heights (`-1` for an empty subtree, `0` for a leaf). -/
theorem insert_sequence_balanced (ops : List (Int × String)) :
    ∃ t, insertAll .null ops = some t ∧ Balanced t :=
  insertAll_keeps_balanced ops .null trivial

/-- C4: for a tree with the BST property, a key `k` that no entry holds and a label `v`, after
`insert(k, v)` the call `search(k)` returns `v`, whatever rotations the insertion made. -/
theorem search_after_insert (t : Tree) (k : Int) (v : String) (hb : BST t) (hk : k ∉ keys t) :
    ∃ t1, insert t k v = some (t1, true) ∧ search t1 k = v := by
  obtain ⟨t1, e1, b1, pre, post, -, e3, -, -⟩ := insert_absent t k v hb hk
  refine ⟨t1, e1, search_present t1 k v "" b1 ?_⟩
  rw [e3]
  simp

/-- The statement above at a two-entry tree where the insertion rotates the root. -/
theorem search_after_insert_witness :
    BST (.node (newNode 20 "B") 30 "A" 0 .null) ∧ (10 : Int) ∉ keys (.node (newNode 20 "B") 30 "A" 0 .null) ∧
    ∃ t1, insert (.node (newNode 20 "B") 30 "A" 0 .null) 10 "C" = some (t1, true) ∧
      search t1 10 = "C" :=
  ⟨by decide, by decide, search_after_insert _ 10 "C" (by decide) (by decide)⟩

/-- C5: on a tree with the BST property, `search(k)` returns the label of the entry whose key
is `k` when there is one, and the empty string when no entry has key `k`. -/
theorem search_spec (t : Tree) (k : Int) (hb : BST t) :
    (∀ v, (k, v) ∈ inorder t → search t k = v) ∧ (k ∉ keys t → search t k = "") :=
  ⟨fun v hv => search_present t k v "" hb hv, fun hk => search_absent t k "" hk⟩

/-- The statement above at a three-entry tree and a key it holds. -/
theorem search_spec_witness :
    BST (.node (newNode 20 "B") 30 "A" 0 (newNode 40 "D")) ∧
    ((∀ v, ((20 : Int), v) ∈ inorder (.node (newNode 20 "B") 30 "A" 0 (newNode 40 "D")) →
        search (.node (newNode 20 "B") 30 "A" 0 (newNode 40 "D")) 20 = v) ∧
      ((20 : Int) ∉ keys (.node (newNode 20 "B") 30 "A" 0 (newNode 40 "D")) →
        search (.node (newNode 20 "B") 30 "A" 0 (newNode 40 "D")) 20 = "")) :=
  ⟨by decide, search_spec _ 20 (by decide)⟩

/-- C6: for a tree with the BST property and a key `k` that one of its entries holds,
`remove(k)` returns `true`, the new tree has the BST property, and its in-order sequence of
entries is the old one without the entry of key `k`, the other entries kept as they were; this
covers every branch of `_deleteNode`. -/
theorem remove_present_key (t : Tree) (k : Int) (hb : BST t) (hk : k ∈ keys t) :
    ∃ t1, remove t k = some (t1, true) ∧ BST t1 ∧ ∃ pre v post,
      inorder t = pre ++ (k, v) :: post ∧ inorder t1 = pre ++ post := by
  obtain ⟨t1, e1, b1, -, h1⟩ := remove_spec t k hb hk
  exact ⟨t1, e1, b1, h1⟩

/-- The statement above at `sample` and the key of its root, which has two children and a
right child with a left subtree. -/
theorem remove_present_key_witness :
    BST sample ∧ (4 : Int) ∈ keys sample ∧
    ∃ t1, remove sample 4 = some (t1, true) ∧ BST t1 ∧ ∃ pre v post,
      inorder sample = pre ++ (4, v) :: post ∧ inorder t1 = pre ++ post :=
  ⟨by decide, by decide, remove_present_key sample 4 (by decide) (by decide)⟩

/-- C7: for a tree with the BST property and a key `k` that one of its entries holds, after
`remove(k)` the call `search(k)` returns the empty string. -/
theorem search_after_remove (t : Tree) (k : Int) (hb : BST t) (hk : k ∈ keys t) :
    ∃ t1, remove t k = some (t1, true) ∧ search t1 k = "" := by
  obtain ⟨t1, e1, -, hn, -⟩ := remove_spec t k hb hk
  exact ⟨t1, e1, search_absent t1 k "" hn⟩

/-- The statement above at `sample` and the key of an inner node. -/
theorem search_after_remove_witness :
    BST sample ∧ (6 : Int) ∈ keys sample ∧
    ∃ t1, remove sample 6 = some (t1, true) ∧ search t1 6 = "" :=
  ⟨by decide, by decide, search_after_remove sample 6 (by decide) (by decide)⟩

/-- C8: for a tree with the BST property and `r` below its number of entries, `removeInorder(r)`
returns `true` (given fuel for the depth of the tree); the entry `e` at index `r` of the in-order
sequence has exactly `r` entries of smaller key, and the new in-order sequence is the old one
with index `r` erased, so one entry less. -/
theorem removeInorder_rank (t : Tree) (fuel r : Nat) (hb : BST t) (hr : r < size t)
    (hf : depth t + 2 ≤ fuel) :
    ∃ t1 e, removeInorder fuel t (r : Int) = .done (t1, true) ∧
      (inorder t)[r]? = some e ∧
      ((inorder t).filter (fun x => decide (x.1 < e.1))).length = r ∧
      inorder t1 = (inorder t).eraseIdx r ∧ size t1 + 1 = size t := by
  obtain ⟨t1, e1, e2⟩ := removeInorder_spec t fuel r hr hf
  obtain ⟨e, he, hcount⟩ := count_smaller_of_sorted (inorder t) r
    ((bst_iff_sorted t).1 hb) (by rw [length_inorder]; exact hr)
  refine ⟨t1, e, e1, he, hcount, e2, ?_⟩
  rw [← length_inorder t1, ← length_inorder t, e2,
    List.length_eraseIdx_of_lt (by rw [length_inorder]; exact hr)]
  have := length_inorder t
  omega

/-- The statement above at `sample` and rank `3`, the rank of its root. -/
theorem removeInorder_rank_witness :
    BST sample ∧ 3 < size sample ∧ depth sample + 2 ≤ 5 ∧
    ∃ t1 e, removeInorder 5 sample ((3 : Nat) : Int) = .done (t1, true) ∧
      (inorder sample)[3]? = some e ∧
      ((inorder sample).filter (fun x => decide (x.1 < e.1))).length = 3 ∧
      inorder t1 = (inorder sample).eraseIdx 3 ∧ size t1 + 1 = size sample :=
  ⟨by decide, by decide, by decide,
    removeInorder_rank sample 5 3 (by decide) (by decide) (by decide)⟩

/-- C9: on a non-empty tree, `remove(k)` of a key `k` that no entry holds returns `false` and
leaves the tree as it was, `height` fields included (the BST property is not needed). -/
theorem remove_absent_key (t : Tree) (k : Int) (ht : t ≠ .null) (hk : k ∉ keys t) :
    remove t k = some (t, false) := by
  cases t with
  | null => exact absurd rfl ht
  | node l id name h r =>
    simp only [remove, remove_absent _ none k hk, plug]
    simp

/-- The statement above at `sample` and a key larger than all of its keys. -/
theorem remove_absent_key_witness :
    sample ≠ .null ∧ (9 : Int) ∉ keys sample ∧ remove sample 9 = some (sample, false) :=
  ⟨by decide, by decide, remove_absent_key sample 9 (by decide) (by decide)⟩

/-- C10: on a non-empty tree with `n` entries, `removeInorder(r)` with `r ≥ n` returns `false`
(given fuel for the depth of the tree) and leaves the tree as it was. -/
theorem removeInorder_out_of_range (t : Tree) (fuel : Nat) (r : Int) (ht : t ≠ .null)
    (hr : (size t : Int) ≤ r) (hf : depth t + 1 ≤ fuel) :
    removeInorder fuel t r = .done (t, false) := by
  cases t with
  | null => exact absurd rfl ht
  | node l id name h rt =>
    simp only [removeInorder, removeInorder_walk _ fuel none r hf (Or.inr hr), plug]
    simp

/-- The statement above at `sample` and the rank `7`, its number of entries. -/
theorem removeInorder_out_of_range_witness :
    sample ≠ .null ∧ ((size sample : Nat) : Int) ≤ 7 ∧ depth sample + 1 ≤ 4 ∧
    removeInorder 4 sample 7 = .done (sample, false) :=
  ⟨by decide, by decide, by decide,
    removeInorder_out_of_range sample 4 7 (by decide) (by decide) (by decide)⟩

/-- C11 (the code at the failing input): after `insert` of the keys 2, 1, 3, 4 into the empty
tree, `remove(1)` returns `true` and leaves the root with an empty left subtree and a right
subtree of height 1, a balance factor of `-2`; `removeInorder(0)` on the same tree does the
same.  Neither removal path calls `_updateBalance`. -/
theorem removal_unbalances :
    insertAll .null [(2, "b"), (1, "a"), (3, "c"), (4, "d")]
      = some (.node (newNode 1 "a") 2 "b" 0 (.node .null 3 "c" 0 (newNode 4 "d"))) ∧
    Balanced (.node (newNode 1 "a") 2 "b" 0 (.node .null 3 "c" 0 (newNode 4 "d"))) ∧
    remove (.node (newNode 1 "a") 2 "b" 0 (.node .null 3 "c" 0 (newNode 4 "d"))) 1
      = some (.node .null 2 "b" 2 (.node .null 3 "c" 1 (newNode 4 "d")), true) ∧
    removeInorder 5 (.node (newNode 1 "a") 2 "b" 0 (.node .null 3 "c" 0 (newNode 4 "d"))) 0
      = .done (.node .null 2 "b" 2 (.node .null 3 "c" 1 (newNode 4 "d")), true) ∧
    _getHeight .null - _getHeight (.node .null 3 "c" 1 (newNode 4 "d")) = -2 ∧
    ¬ Balanced (.node .null 2 "b" 2 (.node .null 3 "c" 1 (newNode 4 "d"))) := by
  decide

/-- C12 (the code at the failing input): after `insert(1, "a")` and `insert(2, "b")` on the
empty tree the root has the subtree of key 2 under it, so its true height is 1, and its
`height` field still is the 0 of the constructor.  On the removal path only the node at the
splice and its children are refreshed: from a tree with accurate fields, `remove(4)` of a leaf
two levels down leaves the root with the field 2 for a true height of 1. -/
theorem insert_leaves_height_stale :
    insertAll .null [(1, "a"), (2, "b")] = some (.node .null 1 "a" 0 (newNode 2 "b")) ∧
    _getHeight (.node .null 1 "a" 0 (newNode 2 "b")) = 1 ∧
    ¬ HeightsOk (.node .null 1 "a" 0 (newNode 2 "b")) ∧
    HeightsOk (.node (newNode 1 "a") 2 "b" 2 (.node .null 3 "c" 1 (newNode 4 "d"))) ∧
    remove (.node (newNode 1 "a") 2 "b" 2 (.node .null 3 "c" 1 (newNode 4 "d"))) 4
      = some (.node (newNode 1 "a") 2 "b" 2 (newNode 3 "c"), true) ∧
    ¬ HeightsOk (.node (newNode 1 "a") 2 "b" 2 (newNode 3 "c")) := by
  decide

/-- C19: `remove` and `removeInorder` dereference `nullptr` exactly when the tree is empty, for
every argument; on a non-empty tree both return a tree and a boolean (`removeInorder` given fuel
for the depth of the tree), with no dereference of `nullptr` inside `_deleteNode` or
`_getLeftmost`. -/
theorem remove_null_deref_iff_empty (t : Tree) (k c : Int) (fuel : Nat)
    (hf : depth t + 2 ≤ fuel) :
    (remove t k = none ↔ t = .null) ∧
    (removeInorder fuel t c = .nullDeref ↔ t = .null) ∧
    (t ≠ .null → (∃ t1 b, remove t k = some (t1, b)) ∧
      ∃ t1 b, removeInorder fuel t c = .done (t1, b)) := by
  by_cases ht : t = .null
  · subst ht
    exact ⟨⟨fun _ => rfl, fun _ => rfl⟩, ⟨fun _ => rfl, fun _ => rfl⟩, fun h => absurd rfl h⟩
  · obtain ⟨t1, b, e1, -, -⟩ := remove_top_general t k ht
    obtain ⟨t2, b2, e2, -, -⟩ := removeInorder_top_general t fuel c ht hf
    refine ⟨⟨fun h => ?_, fun h => absurd h ht⟩, ⟨fun h => ?_, fun h => absurd h ht⟩,
      fun _ => ⟨⟨t1, b, e1⟩, ⟨t2, b2, e2⟩⟩⟩
    · rw [e1] at h; cases h
    · rw [e2] at h; cases h

/-- The statement above at `sample`, the key of its root and the rank `2`. -/
theorem remove_null_deref_iff_empty_witness :
    depth sample + 2 ≤ 5 ∧
    (remove sample 4 = none ↔ sample = .null) ∧
    (removeInorder 5 sample 2 = .nullDeref ↔ sample = .null) ∧
    (sample ≠ .null → (∃ t1 b, remove sample 4 = some (t1, b)) ∧
      ∃ t1 b, removeInorder 5 sample 2 = .done (t1, b)) :=
  ⟨by decide, remove_null_deref_iff_empty sample 4 2 5 (by decide)⟩

/-- C20: each of the four rotations, on a subtree that has the child (for the double rotations
also the grandchild) it pivots on, returns a subtree with the same in-order sequence of entries,
which therefore has the BST property exactly when its input has it. -/
theorem rotations_keep_inorder (a b c d : Tree) (i1 i2 i3 : Int) (n1 n2 n3 : String)
    (h1 h2 h3 : Int) :
    (∃ t1, _rotateRight (.node (.node a i1 n1 h1 b) i2 n2 h2 c) = some t1 ∧
      inorder t1 = inorder (.node (.node a i1 n1 h1 b) i2 n2 h2 c) ∧
      (BST t1 ↔ BST (.node (.node a i1 n1 h1 b) i2 n2 h2 c))) ∧
    (∃ t1, _rotateLeft (.node a i1 n1 h1 (.node b i2 n2 h2 c)) = some t1 ∧
      inorder t1 = inorder (.node a i1 n1 h1 (.node b i2 n2 h2 c)) ∧
      (BST t1 ↔ BST (.node a i1 n1 h1 (.node b i2 n2 h2 c)))) ∧
    (∃ t1, _rotateRightLeft (.node a i1 n1 h1 (.node (.node b i2 n2 h2 c) i3 n3 h3 d)) = some t1 ∧
      inorder t1 = inorder (.node a i1 n1 h1 (.node (.node b i2 n2 h2 c) i3 n3 h3 d)) ∧
      (BST t1 ↔ BST (.node a i1 n1 h1 (.node (.node b i2 n2 h2 c) i3 n3 h3 d)))) ∧
    (∃ t1, _rotateLeftRight (.node (.node a i1 n1 h1 (.node b i2 n2 h2 c)) i3 n3 h3 d) = some t1 ∧
      inorder t1 = inorder (.node (.node a i1 n1 h1 (.node b i2 n2 h2 c)) i3 n3 h3 d) ∧
      (BST t1 ↔ BST (.node (.node a i1 n1 h1 (.node b i2 n2 h2 c)) i3 n3 h3 d))) := by
  have key : ∀ t t1 : Tree, inorder t1 = inorder t → (BST t1 ↔ BST t) := fun t t1 h =>
    ⟨bst_of_inorder_eq h.symm, bst_of_inorder_eq h⟩
  refine ⟨⟨_, rfl, ?_, ?_⟩, ⟨_, rfl, ?_, ?_⟩, ⟨_, rfl, ?_, ?_⟩, ⟨_, rfl, ?_, ?_⟩⟩
  · simp
  · exact key _ _ (by simp)
  · simp
  · exact key _ _ (by simp)
  · simp
  · exact key _ _ (by simp)
  · simp
  · exact key _ _ (by simp)

/-- C13: when entries with pairwise distinct keys are inserted one by one into the empty tree,
in any order, `traversalToString(INORDER)` is the labels in ascending key order joined by `", "`
with no trailing separator; for the empty tree it is the empty string. -/
theorem inorder_string_sorted (entries : List (Int × String))
    (hn : (entries.map Prod.fst).Nodup) :
    (∃ t, insertAll .null entries = some t ∧
      traversalToString t .INORDER = some (String.intercalate ", "
        ((entries.insertionSort (fun a b => a.1 ≤ b.1)).map Prod.snd))) ∧
    traversalToString .null .INORDER = some "" := by
  obtain ⟨t, e1, b1, hp⟩ := insertAll_from_empty entries hn
  refine ⟨⟨t, e1, ?_⟩, rfl⟩
  rw [traversal_inorder, inorder_eq_sort t entries b1 hp]

/-- The statement above at the three entries of keys 30, 20 and 10, whose insertion rotates
the root to the right. -/
theorem inorder_string_sorted_witness :
    ([((30 : Int), "A"), (20, "B"), (10, "C")].map Prod.fst).Nodup ∧
    (∃ t, insertAll .null [(30, "A"), (20, "B"), (10, "C")] = some t ∧
      traversalToString t .INORDER = some (String.intercalate ", "
        (([((30 : Int), "A"), (20, "B"), (10, "C")].insertionSort
          (fun a b => a.1 ≤ b.1)).map Prod.snd))) ∧
    traversalToString .null .INORDER = some "" :=
  ⟨by decide, inorder_string_sorted _ (by decide)⟩

/-- C14: when a list of entries with pairwise distinct keys is inserted into the empty tree, in
any order, and the same keys are then removed one at a time with `remove`, in any order, every
`remove` call returns `true` and `levelCount()` is `0` after the last one. -/
theorem remove_all_keys_empties (entries : List (Int × String)) (order : List Int)
    (hn : (entries.map Prod.fst).Nodup)
    (hp : order.Perm (entries.map Prod.fst)) :
    ∃ t t1, insertAll .null entries = some t ∧
      removeAll t order = some (t1, List.replicate order.length true) ∧
      levelCount t1 = some 0 := by
  obtain ⟨t, e1, b1, hp1⟩ := insertAll_from_empty entries hn
  have hk : (keys t).Perm order := (hp1.map Prod.fst).trans hp.symm
  exact ⟨t, .null, e1, removeAll_keys order t b1 hk, rfl⟩

/-- The statement above at three entries inserted in the order 2, 1, 3 and removed in the
order 3, 1, 2. -/
theorem remove_all_keys_empties_witness :
    ([((2 : Int), "b"), (1, "a"), (3, "c")].map Prod.fst).Nodup ∧
    [(3 : Int), 1, 2].Perm ([((2 : Int), "b"), (1, "a"), (3, "c")].map Prod.fst) ∧
    ∃ t t1, insertAll .null [(2, "b"), (1, "a"), (3, "c")] = some t ∧
      removeAll t [3, 1, 2] = some (t1, List.replicate [(3 : Int), 1, 2].length true) ∧
      levelCount t1 = some 0 :=
  ⟨by decide, by decide, remove_all_keys_empties _ _ (by decide) (by decide)⟩

/-- C15: when a list of `n` entries with pairwise distinct keys is inserted into the empty
tree, in any order, `n` successive `removeInorder` calls, each with a rank below the number of
entries then in the tree, all return `true` (given fuel for `n` entries), and `levelCount()` is
`0` after the last one. -/
theorem removeInorder_all_empties (entries : List (Int × String)) (ranks : List Nat)
    (fuel : Nat) (hn : (entries.map Prod.fst).Nodup)
    (hl : ranks.length = entries.length) (hr : RanksBelow entries.length ranks)
    (hf : entries.length + 2 ≤ fuel) :
    ∃ t t1, insertAll .null entries = some t ∧
      removeInorderAll fuel t (ranks.map Int.ofNat)
        = .done (t1, List.replicate ranks.length true) ∧
      levelCount t1 = some 0 := by
  obtain ⟨t, e1, -, hp1⟩ := insertAll_from_empty entries hn
  have hs : size t = entries.length := by rw [← length_inorder, hp1.length_eq]
  exact ⟨t, .null, e1,
    removeInorderAll_ranks ranks t fuel (by omega) (by rw [hs]; exact hr) (by omega), rfl⟩

/-- The statement above at three entries inserted in the order 2, 1, 3 and the ranks 2, 0, 0. -/
theorem removeInorder_all_empties_witness :
    ([((2 : Int), "b"), (1, "a"), (3, "c")].map Prod.fst).Nodup ∧
    [2, 0, 0].length = [((2 : Int), "b"), (1, "a"), (3, "c")].length ∧
    RanksBelow [((2 : Int), "b"), (1, "a"), (3, "c")].length [2, 0, 0] ∧
    [((2 : Int), "b"), (1, "a"), (3, "c")].length + 2 ≤ 5 ∧
    ∃ t t1, insertAll .null [(2, "b"), (1, "a"), (3, "c")] = some t ∧
      removeInorderAll 5 t ([2, 0, 0].map Int.ofNat)
        = .done (t1, List.replicate [2, 0, 0].length true) ∧
      levelCount t1 = some 0 :=
  ⟨by decide, by decide, by decide, by decide,
    removeInorder_all_empties _ _ 5 (by decide) (by decide) (by decide) (by decide)⟩

/-- C16: for a tree of any shape `levelCount()` returns the number of nodes on the longest path
from the root down, which is `1 + _getHeight`: `0` for the empty tree and `1` for a single
node. -/
theorem levelCount_is_height_plus_one (t : Tree) (i : Int) (s : String) :
    levelCount t = some (1 + _getHeight t) ∧ levelCount t = some (depth t : Int) ∧
    levelCount .null = some 0 ∧ levelCount (newNode i s) = some 1 := by
  refine ⟨?_, levelCount_eq_depth t, rfl, ?_⟩
  · rw [levelCount_eq_depth, depth_eq_getHeight]
  · rw [levelCount_eq_depth]
    rfl

/-- C17: `traversalToString(LEVELORDER)` is the labels in breadth-first order (depth by depth
from the root, left to right within one depth) joined by `", "` with no trailing separator, and
this order lists the label of every entry exactly once. -/
theorem levelorder_string (t : Tree) :
    traversalToString t .LEVELORDER
      = some (String.intercalate ", " ((List.range (depth t)).flatMap (atDepth t))) ∧
    ((List.range (depth t)).flatMap (atDepth t)).Perm ((inorder t).map Prod.snd) :=
  ⟨traversal_levelorder t, levelorder_perm t⟩

/-- C18: for a tree whose keys all lie in `0 .. 99999999` and a label `s`, `search(s)` returns,
in pre-order (self, left, right) of the tree, one string for each entry whose label is `s` and
none for the other entries; the string of an entry is `_idToString` of its key, which has 8
characters and reads back as the key. -/
theorem searchName_preorder (t : Tree) (s : String)
    (hk : ∀ k ∈ keys t, 0 ≤ k ∧ k ≤ 99999999) :
    searchName t s
      = ((preorder t).filter (fun e => decide (e.2 = s))).map (fun e => _idToString e.1) ∧
    ∀ e ∈ preorder t,
      (_idToString e.1).length = 8 ∧ (_idToString e.1).toNat? = some e.1.toNat := by
  refine ⟨?_, ?_⟩
  · rw [searchName, searchName_eq, List.nil_append]
  · intro e he
    have hmem : e.1 ∈ keys t := List.mem_map.2 ⟨e, (mem_preorder_iff t e).1 he, rfl⟩
    exact idToString_spec e.1 (hk e.1 hmem).1 (hk e.1 hmem).2

/-- The statement above at `sample` and the label of one of its entries. -/
theorem searchName_preorder_witness :
    (∀ k ∈ keys sample, 0 ≤ k ∧ k ≤ 99999999) ∧
    searchName sample "b"
      = ((preorder sample).filter (fun e => decide (e.2 = "b"))).map
          (fun e => _idToString e.1) ∧
    ∀ e ∈ preorder sample,
      (_idToString e.1).length = 8 ∧ (_idToString e.1).toNat? = some e.1.toNat :=
  ⟨by decide, searchName_preorder sample "b" (by decide)⟩

/-- C21: after any sequence of `insert` calls on the empty tree, of which `n` returned `true`,
`L = levelCount()` satisfies `fib (L + 2) ≤ n + 1`, with `fib 1 = fib 2 = 1`: a tree with `L`
levels holds at least `fib (L + 2) - 1` entries. -/
theorem depth_logarithmic (ops : List (Int × String)) :
    ∃ t bs, ∃ L : Nat, insertAllLog .null ops = some (t, bs) ∧
      levelCount t = some (L : Int) ∧ Nat.fib (L + 2) ≤ bs.count true + 1 ∧
      Nat.fib 1 = 1 ∧ Nat.fib 2 = 1 := by
  obtain ⟨t, bs, e1, b1, hs⟩ := insertAllLog_spec ops .null trivial
  refine ⟨t, bs, depth t, e1, levelCount_eq_depth t, ?_, rfl, rfl⟩
  have := fib_le_size t b1
  simp only [size, Nat.zero_add] at hs
  omega

/-- C22: on a tree of any shape, for every key and label, `insert` and `_insert` return without
a dereference of `nullptr`, and so does `_updateBalance` on every node: a node that it finds
right-heavy has the right child that `_rotateLeft` pivots on, and the left grandchild that
`_rotateRightLeft` pivots on when that child has balance `1`; likewise on the left. -/
theorem insert_never_null_deref (t : Tree) (k : Int) (v : String) (l r : Tree)
    (id h : Int) (name : String) :
    (∃ t1 b, insert t k v = some (t1, b)) ∧
    (∃ t1, _insert t k v = some t1 ∧ t1 ≠ .null) ∧
    (∃ t1, _updateBalance (.node l id name h r) = some t1 ∧ t1 ≠ .null) ∧
    (_getHeight l - _getHeight r < -1 →
      (∃ t1, _rotateLeft (.node l id name h r) = some t1) ∧
      (_getBalance r = some 1 → ∃ t1, _rotateRightLeft (.node l id name h r) = some t1)) ∧
    (_getHeight l - _getHeight r > 1 →
      (∃ t1, _rotateRight (.node l id name h r) = some t1) ∧
      (_getBalance l = some (-1) → ∃ t1, _rotateLeftRight (.node l id name h r) = some t1)) :=
  ⟨insert_total t k v, insert_isSome t k v, updateBalance_isSome l id name h r,
    right_pivots_exist l id name h r, left_pivots_exist l id name h r⟩

/-- C23 (the code at the failing inputs): `validateCount` accepts the empty string, which
`as_int` cannot convert (`std::stoi` throws `std::invalid_argument`), and it accepts the digits
of `2^31`, which `as_int` cannot convert either (`std::out_of_range`). -/
theorem validateCount_accepts_unconvertible :
    validateCount "" = true ∧ as_int "" = none ∧
    validateCount "2147483648" = true ∧ as_int "2147483648" = none := by
  decide

end AVLTree
